import Mathlib

/-!
Verification of the core of a Rust ray tracer: the BVH spatial index
(src/bvh.rs), the recursive shading engine (src/world.rs, src/material.rs),
lights (src/light.rs) and the render loop (src/world.rs, src/camera.rs).

Modelling conventions.
All f32 arithmetic is embedded as exact rational arithmetic.  The few f32
intrinsics with no rational counterpart (sqrt, powf) are abstracted into a
FloatOps record that parameterises the affected definitions; theorems state
the properties of those intrinsics they rely on (for example sqrt 1 = 1).
Geometric primitives are opaque to the core (the spec lists them as external
collaborators): an Object carries its world-space bounding box, its
ray-intersection query, its normal, its surface colour and its material,
which is exactly the interface bvh.rs / world.rs / material.rs consume.
Division by zero in ℚ yields 0; every place the Rust code can divide by
zero is commented with the f32 behaviour and why the model agrees.
-/

namespace Raytracer

/-- Three rational components, modelling cgmath Point3 of f32 and Vector3 of f32. -/
structure V3 where
  x : ℚ
  y : ℚ
  z : ℚ
deriving DecidableEq, Repr

instance : Add V3 := ⟨fun a b => ⟨a.x + b.x, a.y + b.y, a.z + b.z⟩⟩

instance : Sub V3 := ⟨fun a b => ⟨a.x - b.x, a.y - b.y, a.z - b.z⟩⟩

instance : Neg V3 := ⟨fun a => ⟨-a.x, -a.y, -a.z⟩⟩

instance : SMul ℚ V3 := ⟨fun c v => ⟨c * v.x, c * v.y, c * v.z⟩⟩

instance : Zero V3 := ⟨⟨0, 0, 0⟩⟩

/-- Dot product. -/
def V3.dot (a b : V3) : ℚ := a.x * b.x + a.y * b.y + a.z * b.z

/-- Cross product. -/
def V3.cross (a b : V3) : V3 :=
  ⟨a.y * b.z - a.z * b.y, a.z * b.x - a.x * b.z, a.x * b.y - a.y * b.x⟩

/-- Component access by axis number, modelling cgmath indexing p[dim]. -/
def V3.nth (v : V3) : ℕ → ℚ
  | 0 => v.x
  | 1 => v.y
  | _ => v.z

/-- Componentwise minimum. -/
def V3.cmin (a b : V3) : V3 := ⟨min a.x b.x, min a.y b.y, min a.z b.z⟩

/-- Componentwise maximum. -/
def V3.cmax (a b : V3) : V3 := ⟨max a.x b.x, max a.y b.y, max a.z b.z⟩

/-- Componentwise order on points. -/
def V3.le (a b : V3) : Prop := a.x ≤ b.x ∧ a.y ≤ b.y ∧ a.z ≤ b.z

instance (a b : V3) : Decidable (V3.le a b) := by unfold V3.le; infer_instance

/-- Abstract interface for the f32 intrinsics used by the tracer that have no
exact rational counterpart.  Theorems state exactly the properties of these
operations that they need. -/
structure FloatOps where
  sqrt : ℚ → ℚ
  powf : ℚ → ℚ → ℚ

/-- cgmath InnerSpace::magnitude: sqrt of the squared length. -/
def magnitude (F : FloatOps) (v : V3) : ℚ := F.sqrt (v.dot v)

/-- cgmath InnerSpace::normalize: scale by the reciprocal magnitude. -/
def normalize (F : FloatOps) (v : V3) : V3 := (1 / magnitude F v) • v

/-- cgmath MetricSpace::distance between two points. -/
def dist_pts (F : FloatOps) (p q : V3) : ℚ := F.sqrt ((p - q).dot (p - q))

/-- Ray (src/ray.rs): origin plus direction.  Ray::new normalizes the
direction, so a Ray value holds whatever the `new` smart constructor
produced. -/
structure Ray where
  position : V3
  direction : V3
deriving DecidableEq, Repr

/-- Ray::new — normalizes the direction at construction. -/
def Ray.new (F : FloatOps) (position direction : V3) : Ray :=
  ⟨position, normalize F direction⟩

/-- Ray::get_point_on_ray. -/
def Ray.get_point_on_ray (r : Ray) (t : ℚ) : V3 := r.position + t • r.direction

/-- Ray::get_direction. -/
def Ray.get_direction (r : Ray) : V3 := r.direction

/-- Ray::get_t — the parameter of the point on the ray closest to `point`. -/
def Ray.get_t (r : Ray) (point : V3) : ℚ := (point - r.position).dot r.direction

/-- Ray::offset — move the origin forward by epsilon (re-runs Ray::new). -/
def Ray.offset (F : FloatOps) (r : Ray) (epsilon : ℚ) : Ray :=
  Ray.new F (r.position + epsilon • r.direction) r.direction

/-- utils::clamp. -/
def clamp (x low high : ℚ) : ℚ :=
  if x < low then low else if x > high then high else x

/-- Color (src/color.rs): rgba channels.  Color::rgba clamps each channel
into the unit interval, so channels of any colour the program builds are
saturated at construction. -/
structure Color where
  r : ℚ
  g : ℚ
  b : ℚ
  a : ℚ
deriving DecidableEq, Repr

/-- Color::rgba — clamps every channel into the unit interval. -/
def Color.rgba (r g b a : ℚ) : Color :=
  ⟨clamp r 0 1, clamp g 0 1, clamp b 0 1, clamp a 0 1⟩

/-- Color::rgb — alpha defaults to 1. -/
def Color.rgb (r g b : ℚ) : Color := Color.rgba r g b 1

/-- cgmath Vector4 of f32 — used by World::render to accumulate samples
without clamping. -/
structure V4 where
  x : ℚ
  y : ℚ
  z : ℚ
  w : ℚ
deriving DecidableEq, Repr

instance : Add V4 := ⟨fun a b => ⟨a.x + b.x, a.y + b.y, a.z + b.z, a.w + b.w⟩⟩

instance : Zero V4 := ⟨⟨0, 0, 0, 0⟩⟩

/-- Color::to_vec. -/
def Color.to_vec (c : Color) : V4 := ⟨c.r, c.g, c.b, c.a⟩

/-- impl Add for Color — adds channels and re-clamps. -/
instance : Add Color :=
  ⟨fun c d => Color.rgba (c.r + d.r) (c.g + d.g) (c.b + d.b) (c.a + d.a)⟩

/-- impl Mul for Color — multiplies channels and re-clamps. -/
instance : Mul Color :=
  ⟨fun c d => Color.rgba (c.r * d.r) (c.g * d.g) (c.b * d.b) (c.a * d.a)⟩

/-- impl Mul of f32 for Color (both orders in the source delegate here). -/
instance : SMul ℚ Color :=
  ⟨fun s c => Color.rgba (c.r * s) (c.g * s) (c.b * s) (c.a * s)⟩

/-- The per-axis ray interval of AABB::intersect (the local enum in
src/bvh.rs). -/
inductive Interval where
  | infinite
  | closed (lo hi : ℚ)
  | empty
deriving DecidableEq, Repr

/-- Interval::new — the parameter interval in which the ray is inside the
slab of one axis.  A zero slope means the ray is parallel to the axis:
the whole line when the origin coordinate is within bounds, empty
otherwise, with no division. -/
def Interval.new (a b x slope : ℚ) : Interval :=
  if slope = 0 then
    if a ≤ x ∧ x ≤ b then Interval.infinite else Interval.empty
  else
    Interval.closed (min ((a - x) / slope) ((b - x) / slope))
      (max ((a - x) / slope) ((b - x) / slope))

/-- Interval::intersect. -/
def Interval.intersect : Interval → Interval → Interval
  | Interval.infinite, other => other
  | Interval.empty, _ => Interval.empty
  | Interval.closed a b, Interval.infinite => Interval.closed a b
  | Interval.closed _ _, Interval.empty => Interval.empty
  | Interval.closed a b, Interval.closed c d =>
    if max a c ≤ min b d then Interval.closed (max a c) (min b d)
    else Interval.empty

/-- Axis-aligned bounding box (struct AABB in src/bvh.rs).  AABB::new
asserts componentwise lo ≤ hi; theorems carry that invariant as a
hypothesis where they need it. -/
structure AABB where
  lo : V3
  hi : V3
deriving DecidableEq, Repr

/-- AABB::empty — the zero-volume box at the origin, the identity used to
seed union folds. -/
def AABB.empty : AABB := ⟨0, 0⟩

/-- The combined three-axis interval computed inside AABB::intersect. -/
def AABB.slab_interval (bb : AABB) (ray : Ray) : Interval :=
  let position := ray.get_point_on_ray 0
  let direction := ray.get_direction
  (Interval.new bb.lo.x bb.hi.x position.x direction.x).intersect
    ((Interval.new bb.lo.y bb.hi.y position.y direction.y).intersect
      (Interval.new bb.lo.z bb.hi.z position.z direction.z))

/-- AABB::intersect.  The Infinite arm is the source's unreachable panic;
it is dead code for every ray whose direction has a nonzero component
(theorem c10_box_test_total), and the model maps it to none. -/
def AABB.intersect (bb : AABB) (ray : Ray) : Option ℚ :=
  match bb.slab_interval ray with
  | Interval.infinite => none
  | Interval.closed t_min t_max => some (if t_min < 0 then t_max else t_min)
  | Interval.empty => none

/-- utils::component_wise_range.  The source folds min from f32::MAX and max
from f32::MIN and asserts the list nonempty; on a nonempty list that equals
folding from the first element, which is how the model writes it. -/
def component_wise_range : List V3 → V3 × V3
  | [] => (0, 0)
  | p :: ps => (ps.foldl V3.cmin p, ps.foldl V3.cmax p)

/-- AABB::union — componentwise range over all corner points, empty box for
an empty list. -/
def AABB.union (aabbs : List AABB) : AABB :=
  if aabbs.isEmpty then AABB.empty
  else
    let points := (aabbs.map fun bb => [bb.lo, bb.hi]).flatten
    ⟨(component_wise_range points).1, (component_wise_range points).2⟩

/-- AABB::surface_area. -/
def AABB.surface_area (bb : AABB) : ℚ :=
  let d := bb.hi - bb.lo
  2 * d.x * d.y + 2 * d.x * d.z + 2 * d.z * d.y

/-- Material variants (src/material.rs MaterialType).  The source's None
variant is called plain here because none would shadow Option.none. -/
inductive MaterialType where
  | composition (parts : List (MaterialType × ℚ))
  | phong (diffuse specular shininess : ℚ)
  | reflective
  | refractive (index : ℚ)
  | plain
deriving Repr

/-- A geometric primitive as the core consumes it.  The spec lists
Primitive as an external collaborator exposing exactly a world-space
bounding box (Object::get_bounding_box), a ray-intersection query
(Object::get_intersection), a normal (Object::get_normal), a sampled
surface colour (TextureType::sample through Material::get_color) and a
material; bvh.rs / world.rs / material.rs use nothing else. -/
structure Object where
  bb_lo : V3
  bb_hi : V3
  hit : Ray → Option ℚ
  normal_at : V3 → V3
  surface_color_at : V3 → Color
  mat : MaterialType

/-- Object::get_bounding_box wrapped as an AABB, as every call site does
with AABB::new. -/
def Object.bounding_box (o : Object) : AABB := ⟨o.bb_lo, o.bb_hi⟩

/-- The centroid of an object's bounding box (Point3::centroid of the two
corners, i.e. their midpoint), as bvh_split computes it. -/
def Object.centroid (o : Object) : V3 := ((1 : ℚ) / 2) • (o.bb_lo + o.bb_hi)

/-- Placeholder object used only to give List.getD a default; every indexed
access in the model is in bounds. -/
def default_object : Object :=
  ⟨0, 0, fun _ => none, fun _ => 0, fun _ => Color.rgb 0 0 0, MaterialType.plain⟩

/-- Light variants (src/light.rs LightType).  The Cone variant is omitted:
the snapshot's material.rs matches only Ambient, Point and Directional, and
no claim concerns cone lights. -/
inductive LightType where
  | ambient
  | point (position : V3)
  | directional (direction : V3)

/-- Light (src/light.rs). -/
structure Light where
  color : Color
  light_type : LightType

/-- Light::in_shadow, parameterised by the nearest-hit query it receives
(the source passes a Bvh; World::trace_ray inlines the same logic with the
linear World query).  Note the branch where the query returns no
intersection at all reports the light as not reaching the point. -/
def Light.in_shadow (F : FloatOps) (closest : Ray → Option (Object × ℚ))
    (point light_position light_direction : V3) : Bool :=
  let light_ray := Ray.new F light_position light_direction
  let light_to_point_t := dist_pts F point light_position
  match closest light_ray with
  | some ot =>
    let epsilon : ℚ := 1 / 10000
    !(decide (ot.2 + epsilon < light_to_point_t))
  | none => false

/-- Light::reaches_point. -/
def Light.reaches_point (F : FloatOps) (closest : Ray → Option (Object × ℚ))
    (l : Light) (point : V3) : Bool :=
  match l.light_type with
  | LightType.ambient => true
  | LightType.point light_position =>
    Light.in_shadow F closest point light_position (point - light_position)
  | LightType.directional direction =>
    let object_to_light := (Ray.new F point (-direction)).offset F (1 / 10000)
    (closest object_to_light).isNone

/-- Rust Iterator::min_by keyed on the t component with the source's
comparator (partial_cmp falling back to Equal): returns the first element
of minimal t. -/
def min_by_t (hits : List (Object × ℚ)) : Option (Object × ℚ) :=
  hits.foldl
    (fun acc x =>
      match acc with
      | none => some x
      | some m => if x.2 < m.2 then some x else some m)
    none

/-- World::get_closest_intersection — linear scan over an object list,
keeping the smallest t (first on ties). -/
def closest_intersection (objects : List Object) (ray : Ray) :
    Option (Object × ℚ) :=
  min_by_t (objects.filterMap fun object => (object.hit ray).map fun t => (object, t))

/-- SplitType (src/bvh.rs). -/
inductive SplitType where
  | basic
  | sah
deriving DecidableEq, Repr

/-- The sequential largest-range scan of bvh_split: maxdim starts at 0 with
max = diff.x; strict comparisons move it to 1 and then 2. -/
def max_dim (diff : V3) : ℕ :=
  if diff.y > diff.x then (if diff.z > diff.y then 2 else 1)
  else (if diff.z > diff.x then 2 else 0)

/-- SplitBucket (src/bvh.rs). -/
structure SplitBucket where
  count : ℕ
  aabb : AABB
  obj_indexes : List ℕ

/-- Default::default() for SplitBucket. -/
def default_bucket : SplitBucket := ⟨0, AABB.empty, []⟩

/-- In-place update of one list slot, modelling the indexed assignment
buckets[b_ind] in the source. -/
def update_nth : List SplitBucket → ℕ → (SplitBucket → SplitBucket) → List SplitBucket
  | [], _, _ => []
  | b :: bs, 0, f => f b :: bs
  | b :: bs, n + 1, f => b :: update_nth bs n f

/-- The bucket index computation of bvh_split_by_sah:
b = 12 (c − min) / range truncated to i32, with 12 clamped to 11.
In f32 a zero range yields b = NaN and the Rust cast of NaN to i32 gives 0;
rational division by zero also gives 0 here, so the models agree.  b is
never negative because c is at least the centroid minimum. -/
def bucket_index (c_dim min_dim dim_range : ℚ) : ℕ :=
  let b := 12 * (c_dim - min_dim) / dim_range
  let b_ind := (⌊b⌋).toNat
  if b_ind = 12 then 11 else b_ind

/-- One iteration of the bucket-filling loop of bvh_split_by_sah. -/
def add_to_bucket (objects : List Object) (global_bb : AABB) (dim : ℕ)
    (buckets : List SplitBucket) (ic : ℕ × V3) : List SplitBucket :=
  let dim_range := global_bb.hi.nth dim - global_bb.lo.nth dim
  let b_ind := bucket_index (ic.2.nth dim) (global_bb.lo.nth dim) dim_range
  update_nth buckets b_ind fun bucket =>
    ⟨bucket.count + 1,
     AABB.union [bucket.aabb, (objects.getD ic.1 default_object).bounding_box],
     bucket.obj_indexes ++ [ic.1]⟩

/-- The bucket-filling loop of bvh_split_by_sah over the enumerated
centroids, starting from twelve default buckets. -/
def init_buckets (objects : List Object) (centroids : List V3)
    (global_bb : AABB) (dim : ℕ) : List SplitBucket :=
  centroids.enum.foldl (add_to_bucket objects global_bb dim)
    (List.replicate 12 default_bucket)

/-- The SAH cost of splitting after bucket i:
0.125 + (countLeft · areaLeft + countRight · areaRight) / areaParent. -/
def bucket_cost (buckets : List SplitBucket) (global_bb : AABB) (i : ℕ) : ℚ :=
  let left_buckets := buckets.enum.filter fun jb => decide (jb.1 ≤ i)
  let bb_left := AABB.union (left_buckets.map fun jb => jb.2.aabb)
  let count_left : ℚ := (left_buckets.map fun jb => (jb.2.count : ℚ)).sum
  let right_buckets := buckets.enum.filter fun jb => decide (i < jb.1)
  let bb_right := AABB.union (right_buckets.map fun jb => jb.2.aabb)
  let count_right : ℚ := (right_buckets.map fun jb => (jb.2.count : ℚ)).sum
  1 / 8 +
    (count_left * bb_left.surface_area + count_right * bb_right.surface_area) /
      global_bb.surface_area

/-- The minimum-cost scan of bvh_split_by_sah: starts from (0, costs[0]) and
keeps the first strictly smaller cost, so ties resolve to the smallest
index. -/
def min_cost_index (costs : List ℚ) : ℕ :=
  (costs.enum.foldl (fun acc ic => if ic.2 < acc.2 then ic else acc)
    (0, costs.getD 0 0)).1

/-- The left_inds vector: a flag per object, set bucket by bucket to
whether that bucket's index is at most the chosen split index. -/
def left_flags (n : ℕ) (buckets : List SplitBucket) (min_cost_i : ℕ) :
    List Bool :=
  buckets.enum.foldl
    (fun flags ib =>
      ib.2.obj_indexes.foldl
        (fun fl ind => fl.set ind (decide (ib.1 ≤ min_cost_i))) flags)
    (List.replicate n false)

/-- bvh_split_by_sah (src/bvh.rs). -/
def bvh_split_by_sah (objects : List Object) (centroids : List V3)
    (global_bb : AABB) (dim : ℕ) : List Object × List Object :=
  let buckets := init_buckets objects centroids global_bb dim
  let costs := (List.range 11).map (bucket_cost buckets global_bb)
  let min_cost_i := min_cost_index costs
  let flags := left_flags objects.length buckets min_cost_i
  let pr := objects.enum.partition fun io => flags.getD io.1 false
  (pr.1.map Prod.snd, pr.2.map Prod.snd)

/-- bvh_split (src/bvh.rs): split along the axis with the largest centroid
range; midpoint partition for small sets or the Basic policy, SAH
bucketing otherwise. -/
def bvh_split (objects : List Object) (split_type : SplitType) :
    List Object × List Object :=
  let centroids := objects.map Object.centroid
  let cr := component_wise_range centroids
  let min_c := cr.1
  let max_c := cr.2
  let diff := max_c - min_c
  let maxdim := max_dim diff
  let max_axis_midpoint := (max_c.nth maxdim + min_c.nth maxdim) / 2
  if objects.length ≤ 4 ∨ split_type = SplitType.basic then
    objects.partition fun obj => decide (obj.centroid.nth maxdim < max_axis_midpoint)
  else
    bvh_split_by_sah objects centroids ⟨min_c, max_c⟩ maxdim

/-- BvhTree (src/bvh.rs). -/
inductive BvhTree where
  | node (aabb : AABB) (left right : BvhTree) (size : ℕ)
  | leaf (aabb : AABB) (objects : List Object) (size : ℕ)

/-- BvhTree::get_aabb. -/
def BvhTree.get_aabb : BvhTree → AABB
  | BvhTree.node aabb _ _ _ => aabb
  | BvhTree.leaf aabb _ _ => aabb

/-- BvhTree::get_num_objects — the size stored at construction. -/
def BvhTree.get_num_objects : BvhTree → ℕ
  | BvhTree.node _ _ _ size => size
  | BvhTree.leaf _ _ size => size

/-- The objects actually stored in the leaves, in left-to-right order. -/
def BvhTree.leaf_objects : BvhTree → List Object
  | BvhTree.node _ left right _ => left.leaf_objects ++ right.leaf_objects
  | BvhTree.leaf _ objects _ => objects

/-- BvhTree::new parameterised by the split policy and by fuel.  The source
recursion has no structural termination argument — and indeed diverges on
some inputs (see c7) — so the model indexes it by fuel and returns none
when the fuel runs out; build succeeding for some fuel is exactly the
source terminating. -/
def BvhTree.build_with (split_type : SplitType) : ℕ → List Object → Option BvhTree
  | 0, _ => none
  | fuel + 1, objects =>
    let size := objects.length
    if size ≤ 1 then
      some (BvhTree.leaf (AABB.union (objects.map Object.bounding_box)) objects size)
    else
      let lr := bvh_split objects split_type
      match BvhTree.build_with split_type fuel lr.1,
          BvhTree.build_with split_type fuel lr.2 with
      | some left, some right =>
        some (BvhTree.node (AABB.union [left.get_aabb, right.get_aabb]) left right size)
      | _, _ => none

/-- BvhTree::new as the source calls it: always the SAH policy. -/
def BvhTree.build : ℕ → List Object → Option BvhTree :=
  BvhTree.build_with SplitType.sah

/-- The first-minimal combination of the two child results in
BvhTree::get_closest_intersection (min_by over at most two hits). -/
def min_opt2 (a b : Option (Object × ℚ)) : Option (Object × ℚ) :=
  match a, b with
  | none, o => o
  | some x, none => some x
  | some x, some y => if y.2 < x.2 then some y else some x

/-- BvhTree::get_closest_intersection. -/
def BvhTree.get_closest_intersection : BvhTree → Ray → Option (Object × ℚ)
  | BvhTree.node aabb left right _, ray =>
    match aabb.intersect ray with
    | some _ =>
      min_opt2 (left.get_closest_intersection ray) (right.get_closest_intersection ray)
    | none => none
  | BvhTree.leaf aabb objects _, ray =>
    match aabb.intersect ray with
    | some _ =>
      min_by_t (objects.filterMap fun object => (object.hit ray).map fun t => (object, t))
    | none => none

/-- utils::reflect. -/
def reflect (F : FloatOps) (v normal : V3) : V3 :=
  normalize F (v - (2 * v.dot normal) • normal)

/-- utils::refract (Snell's law, with the incidence side choosing the index
quotient). -/
def refract (F : FloatOps) (v normal : V3) (refraction_index : ℚ) : V3 :=
  let n := if v.dot normal ≤ 0 then 1 / refraction_index else refraction_index / 1
  let cos_theta_in := |v.dot normal|
  let cos_theta_out := F.sqrt (1 - F.powf n 2 * (1 - F.powf cos_theta_in 2))
  normalize F ((n • v) + (n * cos_theta_in - cos_theta_out) • normal)

/-- MaterialType::get_phong_multiple. -/
def get_phong_multiple (F : FloatOps) (light_direction normal incoming_direction : V3)
    (diffuse specular shininess : ℚ) : ℚ :=
  let reflection_vector := reflect F light_direction normal
  let specular_intensity := clamp (-(reflection_vector.dot incoming_direction)) 0 1
  let diffuse_intensity := clamp (-(light_direction.dot normal)) 0 1
  diffuse * diffuse_intensity + specular * F.powf specular_intensity shininess

/-- Camera (src/camera.rs), with the camera_to_world matrix abstracted as a
point transform and a vector transform — the spec treats camera
construction (look_at and inversion) as an external collaborator. -/
structure Camera where
  to_world_point : V3 → V3
  to_world_vector : V3 → V3
  width : ℕ
  height : ℕ

/-- Ray::transform_using — transforms origin and direction and re-runs
Ray::new (which re-normalizes). -/
def Ray.transform_using (F : FloatOps) (r : Ray) (tp tv : V3 → V3) : Ray :=
  Ray.new F (tp r.position) (tv r.direction)

/-- World (src/world.rs). -/
structure World where
  camera : Camera
  objects : List Object
  lights : List Light
  background_color : Color

/-- Result of a traced ray, instrumented for the resource claims: the colour
the source returns, the number of recursive World::trace_ray invocations
performed below this call, the number of get_closest_intersection queries
issued, and the maximum nesting depth of recursive trace_ray calls. -/
structure TraceResult where
  color : Color
  calls : ℕ
  itests : ℕ
  depth : ℕ
deriving Repr

/-- Number of get_closest_intersection queries one light's visibility check
issues: none for ambient lights, one shadow query otherwise. -/
def light_query_count (l : Light) : ℕ :=
  match l.light_type with
  | LightType.ambient => 0
  | _ => 1

/-- MaterialType::get_color (src/material.rs), with the recursive
World::trace_ray re-entry abstracted as the continuation trace — at every
call site that continuation is trace_ray at the depth budget the material
received, which the Reflective and Refractive arms pass on unchanged while
trace_ray itself already decremented it by one.  The Composition arm
recurses structurally on the material.  surface_color is the texture
sample Material::get_color computes before dispatching. -/
def MaterialType.get_color (F : FloatOps) (trace : Ray → TraceResult)
    (mt : MaterialType) (surface_color : Color) (incoming_ray : Ray) (t : ℚ)
    (object : Object) (lights : List Light) : TraceResult :=
  match mt with
  | MaterialType.composition parts =>
    let results := parts.attach.map fun p =>
      (p.1.2,
        MaterialType.get_color F trace p.1.1 surface_color incoming_ray t object lights)
    ⟨(results.map fun cs => cs.1 • cs.2.color).foldl (· + ·) (Color.rgba 0 0 0 0),
     (results.map fun cs => cs.2.calls).sum,
     (results.map fun cs => cs.2.itests).sum,
     (results.map fun cs => cs.2.depth).foldr max 0⟩
  | MaterialType.phong diffuse specular shininess =>
    let intersection_point := incoming_ray.get_point_on_ray t
    let normal := object.normal_at intersection_point
    ⟨(lights.map fun light =>
        let light_color : Color :=
          match light.light_type with
          | LightType.ambient => light.color
          | LightType.point position =>
            let light_dir := intersection_point - position
            let falloff := 5 / (1 / 1000 + light_dir.dot light_dir)
            (get_phong_multiple F (normalize F light_dir) normal
                incoming_ray.get_direction diffuse specular shininess) •
              (falloff • light.color)
          | LightType.directional direction =>
            (get_phong_multiple F direction normal incoming_ray.get_direction
                diffuse specular shininess) • light.color
        surface_color * light_color).foldl (· + ·) (Color.rgba 0 0 0 0),
     0, 0, 0⟩
  | MaterialType.reflective =>
    let intersection_point := incoming_ray.get_point_on_ray t
    let normal := object.normal_at intersection_point
    let reflection_direction := reflect F incoming_ray.get_direction normal
    let reflected_ray := (Ray.new F intersection_point reflection_direction).offset F (1 / 10000)
    let sub := trace reflected_ray
    ⟨sub.color, 1 + sub.calls, sub.itests, 1 + sub.depth⟩
  | MaterialType.refractive refraction_index =>
    let intersection_point := incoming_ray.get_point_on_ray t
    let normal := object.normal_at intersection_point
    let refraction_direction := refract F incoming_ray.get_direction normal refraction_index
    let refracted_ray := (Ray.new F intersection_point refraction_direction).offset F (1 / 10000)
    let sub := trace refracted_ray
    ⟨sub.color, 1 + sub.calls, sub.itests, 1 + sub.depth⟩
  | MaterialType.plain => ⟨Color.rgb (1 / 2) (1 / 2) (1 / 2), 0, 0, 0⟩
termination_by sizeOf mt
decreasing_by
  obtain ⟨⟨m, c⟩, hp⟩ := p
  have h1 := List.sizeOf_lt_of_mem hp
  simp at h1 ⊢
  omega

/-- World::trace_ray (src/world.rs).  A zero budget returns the background
colour before any intersection test; otherwise the nearest hit is queried,
the lights are filtered by the shadow test (the snapshot's world.rs calls a
Light::get_light_ray that is absent from it, so the filter is modelled by
the equivalent Light::reaches_point of light.rs), and the hit object's
material produces the colour with the budget decremented by exactly one. -/
def World.trace_ray (F : FloatOps) (w : World) (ray : Ray) : ℕ → TraceResult
  | 0 => ⟨w.background_color, 0, 0, 0⟩
  | d + 1 =>
    match closest_intersection w.objects ray with
    | some ot =>
      let intersection_point := ray.get_point_on_ray ot.2
      let illuminating_lights := w.lights.filter fun light =>
        Light.reaches_point F (closest_intersection w.objects) light intersection_point
      let sub := MaterialType.get_color F (fun r2 => World.trace_ray F w r2 d)
        ot.1.mat (ot.1.surface_color_at intersection_point) ray ot.2 ot.1
        illuminating_lights
      ⟨sub.color, sub.calls, 1 + (w.lights.map light_query_count).sum + sub.itests,
        sub.depth⟩
    | none => ⟨w.background_color, 0, 1, 0⟩

/-- A deterministic model of the sampling RNG: a stream of rational draws
and a cursor.  ThreadRng itself is external randomness; the claims only
need that a generator is or is not consulted. -/
structure RngState where
  stream : ℕ → ℚ
  idx : ℕ

/-- One draw from the generator. -/
def RngState.gen (st : RngState) : ℚ × RngState :=
  (st.stream st.idx, ⟨st.stream, st.idx + 1⟩)

/-- The ray of Camera::generate_ray for given sub-pixel jitter offsets. -/
def Camera.ray_for (F : FloatOps) (cam : Camera) (pixel_x pixel_y : ℕ)
    (dx dy : ℚ) : Ray :=
  let x := ((pixel_x : ℚ) + dx) / (cam.width : ℚ) - 1 / 2
  let y := 1 / 2 - ((pixel_y : ℚ) + dy) / (cam.height : ℚ)
  let dist : ℚ := -1
  (Ray.new F ⟨x, y, dist⟩ ⟨x, y, dist⟩).transform_using F cam.to_world_point
    cam.to_world_vector

/-- Camera::generate_ray (src/camera.rs): no jitter without an RNG, two
draws halved when one is supplied. -/
def Camera.generate_ray (F : FloatOps) (cam : Camera) (pixel_x pixel_y : ℕ)
    (rng : Option RngState) : Ray × Option RngState :=
  match rng with
  | none => (Camera.ray_for F cam pixel_x pixel_y 0 0, none)
  | some st =>
    let g1 := st.gen
    let g2 := g1.2.gen
    (Camera.ray_for F cam pixel_x pixel_y (g1.1 / 2) (g2.1 / 2), some g2.2)

/-- The per-pixel sample loop of World::render: samples_per_pixel rays,
jittered only when samples_per_pixel is not 1, colours accumulated as
Vector4 sums and averaged through Color::rgba.  The RNG state is threaded
exactly as the source's single mutable ThreadRng is. -/
def World.sample_pixel (F : FloatOps) (w : World) (x y spp : ℕ)
    (rng : RngState) : Color × RngState :=
  let res := (List.range spp).foldl
    (fun acc _ =>
      let rng_opt := if spp = 1 then none else some acc.2
      let gr := Camera.generate_ray F w.camera x y rng_opt
      let color := (World.trace_ray F w gr.1 10).color
      (acc.1 + color.to_vec, gr.2.getD acc.2))
    ((0 : V4), rng)
  (Color.rgba (res.1.x / (spp : ℚ)) (res.1.y / (spp : ℚ)) (res.1.z / (spp : ℚ))
    (res.1.w / (spp : ℚ)), res.2)

/-- World::render (src/world.rs): the pixel grid pixels[x][y], built by the
sequential column-major double loop with max_ray_bounces = 10, together
with the final RNG state.  The image encoding step places pixels[x][y] at
coordinate (x, y) unchanged. -/
def World.render (F : FloatOps) (w : World) (spp : ℕ) (rng : RngState) :
    List (List Color) × RngState :=
  (List.range w.camera.width).foldl
    (fun acc x =>
      let col := (List.range w.camera.height).foldl
        (fun acc2 y =>
          let pr := World.sample_pixel F w x y spp acc2.2
          (acc2.1 ++ [pr.1], pr.2))
        (([] : List Color), acc.2)
      (acc.1 ++ [col.1], col.2))
    ([], rng)

/-- Exact rational square root on perfect squares (numerator and denominator
separately), used to instantiate FloatOps concretely in witnesses.  It is
positive on positive input, which is all any theorem assumes of sqrt
beyond concrete perfect-square values. -/
def rat_sqrt (q : ℚ) : ℚ := (Nat.sqrt q.num.toNat : ℚ) / (Nat.sqrt q.den : ℚ)

/-- A concrete FloatOps instance for witnesses. -/
def F_demo : FloatOps := ⟨rat_sqrt, fun base _ => base⟩

theorem rat_sqrt_pos (q : ℚ) (hq : 0 < q) : 0 < rat_sqrt q := by
  unfold rat_sqrt
  have hnum : 0 < q.num := Rat.num_pos.mpr hq
  have h1 : 0 < Nat.sqrt q.num.toNat := by
    rw [Nat.sqrt_pos]
    omega
  have h2 : 0 < Nat.sqrt q.den := by
    rw [Nat.sqrt_pos]
    exact Nat.one_le_iff_ne_zero.mpr (Rat.den_nz q)
  positivity

/-- Membership in a per-axis interval. -/
def Interval.memQ (t : ℚ) : Interval → Prop
  | Interval.infinite => True
  | Interval.closed lo hi => lo ≤ t ∧ t ≤ hi
  | Interval.empty => False

/-- A produced interval is well formed when its closed bounds are ordered. -/
def Interval.wf : Interval → Prop
  | Interval.closed lo hi => lo ≤ hi
  | _ => True

theorem Interval.new_wf (a b x slope : ℚ) : (Interval.new a b x slope).wf := by
  unfold Interval.new
  split
  · split <;> trivial
  · exact min_le_max

theorem Interval.intersect_wf {i j : Interval} (hi : i.wf) (hj : j.wf) :
    (i.intersect j).wf := by
  cases i with
  | infinite => simpa [Interval.intersect] using hj
  | empty => simp [Interval.intersect, Interval.wf]
  | closed a b =>
    cases j with
    | infinite => simpa [Interval.intersect, Interval.wf] using hi
    | empty => simp [Interval.intersect, Interval.wf]
    | closed c d =>
      simp only [Interval.intersect]
      split
      · rename_i h
        exact h
      · trivial

/-- Membership in Interval::new is exactly the slab condition a ≤ x + t·slope ≤ b,
for an ordered pair of bounds (the AABB construction invariant). -/
theorem Interval.mem_new {a b : ℚ} (hab : a ≤ b) (x slope t : ℚ) :
    Interval.memQ t (Interval.new a b x slope) ↔
      a ≤ x + t * slope ∧ x + t * slope ≤ b := by
  rcases eq_or_ne slope 0 with h0 | h0
  · subst h0
    by_cases hx : a ≤ x ∧ x ≤ b
    · simp [Interval.new, Interval.memQ, hx, hx.1, hx.2]
    · simp [Interval.new, Interval.memQ, hx]
  · unfold Interval.new
    rw [if_neg h0]
    simp only [Interval.memQ]
    rcases lt_or_gt_of_ne h0 with hneg | hpos
    · have ha : ((a - x) / slope ≤ t) ↔ x + t * slope ≤ a := by
        rw [div_le_iff_of_neg hneg]
        constructor <;> intro <;> linarith
      have ha2 : (t ≤ (a - x) / slope) ↔ a ≤ x + t * slope := by
        rw [le_div_iff_of_neg hneg]
        constructor <;> intro <;> linarith
      have hb : ((b - x) / slope ≤ t) ↔ x + t * slope ≤ b := by
        rw [div_le_iff_of_neg hneg]
        constructor <;> intro <;> linarith
      have hb2 : (t ≤ (b - x) / slope) ↔ b ≤ x + t * slope := by
        rw [le_div_iff_of_neg hneg]
        constructor <;> intro <;> linarith
      rw [min_le_iff, le_max_iff, ha, hb, ha2, hb2]
      constructor
      · rintro ⟨h1 | h1, h2 | h2⟩ <;> constructor <;> linarith
      · rintro ⟨h1, h2⟩
        exact ⟨Or.inr h2, Or.inl h1⟩
    · have ha : ((a - x) / slope ≤ t) ↔ a ≤ x + t * slope := by
        rw [div_le_iff₀ hpos]
        constructor <;> intro <;> linarith
      have ha2 : (t ≤ (a - x) / slope) ↔ x + t * slope ≤ a := by
        rw [le_div_iff₀ hpos]
        constructor <;> intro <;> linarith
      have hb : ((b - x) / slope ≤ t) ↔ b ≤ x + t * slope := by
        rw [div_le_iff₀ hpos]
        constructor <;> intro <;> linarith
      have hb2 : (t ≤ (b - x) / slope) ↔ x + t * slope ≤ b := by
        rw [le_div_iff₀ hpos]
        constructor <;> intro <;> linarith
      rw [min_le_iff, le_max_iff, ha, hb, ha2, hb2]
      constructor
      · rintro ⟨h1 | h1, h2 | h2⟩ <;> constructor <;> linarith
      · rintro ⟨h1, h2⟩
        exact ⟨Or.inl h1, Or.inr h2⟩

/-- Interval::intersect computes set intersection of memberships. -/
theorem Interval.mem_intersect (i j : Interval) (t : ℚ) :
    Interval.memQ t (i.intersect j) ↔ Interval.memQ t i ∧ Interval.memQ t j := by
  cases i with
  | infinite => simp [Interval.intersect, Interval.memQ]
  | empty => simp [Interval.intersect, Interval.memQ]
  | closed a b =>
    cases j with
    | infinite => simp [Interval.intersect, Interval.memQ]
    | empty => simp [Interval.intersect, Interval.memQ]
    | closed c d =>
      simp only [Interval.intersect]
      split
      · rename_i h
        simp only [Interval.memQ, max_le_iff, le_min_iff]
        constructor
        · rintro ⟨⟨h1, h2⟩, h3, h4⟩
          exact ⟨⟨h1, h3⟩, h2, h4⟩
        · rintro ⟨⟨h1, h3⟩, h2, h4⟩
          exact ⟨⟨h1, h2⟩, h3, h4⟩
      · rename_i h
        simp only [Interval.memQ, false_iff]
        rintro ⟨⟨h1, h2⟩, h3, h4⟩
        exact h (le_trans (max_le h1 h3) (le_min h2 h4))

@[simp] theorem V3.add_x (a b : V3) : (a + b).x = a.x + b.x := rfl

@[simp] theorem V3.add_y (a b : V3) : (a + b).y = a.y + b.y := rfl

@[simp] theorem V3.add_z (a b : V3) : (a + b).z = a.z + b.z := rfl

@[simp] theorem V3.sub_x (a b : V3) : (a - b).x = a.x - b.x := rfl

@[simp] theorem V3.sub_y (a b : V3) : (a - b).y = a.y - b.y := rfl

@[simp] theorem V3.sub_z (a b : V3) : (a - b).z = a.z - b.z := rfl

@[simp] theorem V3.smul_x (c : ℚ) (v : V3) : (c • v).x = c * v.x := rfl

@[simp] theorem V3.smul_y (c : ℚ) (v : V3) : (c • v).y = c * v.y := rfl

@[simp] theorem V3.smul_z (c : ℚ) (v : V3) : (c • v).z = c * v.z := rfl

@[simp] theorem V3.zero_x : (0 : V3).x = 0 := rfl

@[simp] theorem V3.zero_y : (0 : V3).y = 0 := rfl

@[simp] theorem V3.zero_z : (0 : V3).z = 0 := rfl

/-- Spatial membership in a box, used to state what the slab test means. -/
def AABB.contains_point (bb : AABB) (p : V3) : Prop :=
  bb.lo.x ≤ p.x ∧ p.x ≤ bb.hi.x ∧ bb.lo.y ≤ p.y ∧ p.y ≤ bb.hi.y ∧
    bb.lo.z ≤ p.z ∧ p.z ≤ bb.hi.z

/-- Box inclusion, stated on the corner points. -/
def AABB.subset (i o : AABB) : Prop := V3.le o.lo i.lo ∧ V3.le i.hi o.hi

theorem AABB.contains_point_mono {i o : AABB} (hsub : AABB.subset i o) {p : V3}
    (hp : i.contains_point p) : o.contains_point p := by
  obtain ⟨⟨s1, s2, s3⟩, s4, s5, s6⟩ := hsub
  obtain ⟨h1, h2, h3, h4, h5, h6⟩ := hp
  exact ⟨le_trans s1 h1, le_trans h2 s4, le_trans s2 h3, le_trans h4 s5,
    le_trans s3 h5, le_trans h6 s6⟩

theorem AABB.subset_trans {a b c : AABB} (h1 : AABB.subset a b)
    (h2 : AABB.subset b c) : AABB.subset a c := by
  obtain ⟨⟨u1, u2, u3⟩, v1, v2, v3⟩ := h1
  obtain ⟨⟨w1, w2, w3⟩, q1, q2, q3⟩ := h2
  exact ⟨⟨le_trans w1 u1, le_trans w2 u2, le_trans w3 u3⟩,
    le_trans v1 q1, le_trans v2 q2, le_trans v3 q3⟩

theorem AABB.slab_wf (bb : AABB) (r : Ray) : (bb.slab_interval r).wf :=
  Interval.intersect_wf (Interval.new_wf _ _ _ _)
    (Interval.intersect_wf (Interval.new_wf _ _ _ _) (Interval.new_wf _ _ _ _))

/-- The combined slab interval is exactly the set of ray parameters whose
point lies in the box, for a well-formed box. -/
theorem AABB.mem_slab (bb : AABB) (r : Ray) (hwf : V3.le bb.lo bb.hi) (t : ℚ) :
    Interval.memQ t (bb.slab_interval r) ↔
      bb.contains_point (r.get_point_on_ray t) := by
  obtain ⟨w1, w2, w3⟩ := hwf
  unfold AABB.slab_interval
  rw [Interval.mem_intersect, Interval.mem_intersect,
    Interval.mem_new w1, Interval.mem_new w2, Interval.mem_new w3]
  unfold AABB.contains_point Ray.get_point_on_ray Ray.get_direction
  simp only [V3.add_x, V3.add_y, V3.add_z, V3.smul_x, V3.smul_y, V3.smul_z]
  constructor
  · rintro ⟨⟨h1, h2⟩, ⟨h3, h4⟩, h5, h6⟩
    refine ⟨?_, ?_, ?_, ?_, ?_, ?_⟩ <;> ring_nf <;> ring_nf at h1 h2 h3 h4 h5 h6 <;>
      linarith
  · rintro ⟨h1, h2, h3, h4, h5, h6⟩
    refine ⟨⟨?_, ?_⟩, ⟨?_, ?_⟩, ?_, ?_⟩ <;> ring_nf <;> ring_nf at h1 h2 h3 h4 h5 h6 <;>
      linarith

theorem Interval.new_ne_infinite {slope : ℚ} (h : slope ≠ 0) (a b x : ℚ) :
    Interval.new a b x slope ≠ Interval.infinite := by
  unfold Interval.new
  rw [if_neg h]
  intro hc
  exact Interval.noConfusion hc

theorem Interval.intersect_eq_infinite_iff (i j : Interval) :
    i.intersect j = Interval.infinite ↔
      i = Interval.infinite ∧ j = Interval.infinite := by
  cases i <;> cases j <;> simp [Interval.intersect]
  split <;> simp

theorem Interval.new_zero_slope (a b x : ℚ) :
    Interval.new a b x 0 = Interval.infinite ∨ Interval.new a b x 0 = Interval.empty := by
  unfold Interval.new
  rw [if_pos rfl]
  split <;> simp

/-- With a direction that is nonzero in some component, the combined slab
interval is never the Infinite case: the source's unreachable panic in
AABB::intersect is dead code for such rays. -/
theorem AABB.slab_ne_infinite (bb : AABB) (r : Ray)
    (hdir : r.direction.x ≠ 0 ∨ r.direction.y ≠ 0 ∨ r.direction.z ≠ 0) :
    bb.slab_interval r ≠ Interval.infinite := by
  unfold AABB.slab_interval
  intro hc
  rw [Interval.intersect_eq_infinite_iff] at hc
  rw [Interval.intersect_eq_infinite_iff] at hc
  rcases hdir with h | h | h
  · exact Interval.new_ne_infinite h _ _ _ hc.1
  · exact Interval.new_ne_infinite h _ _ _ hc.2.1
  · exact Interval.new_ne_infinite h _ _ _ hc.2.2

theorem AABB.intersect_none_of_dir_zero (bb : AABB) (r : Ray)
    (hx : r.direction.x = 0) (hy : r.direction.y = 0) (hz : r.direction.z = 0) :
    bb.intersect r = none := by
  unfold AABB.intersect AABB.slab_interval
  rcases Interval.new_zero_slope bb.lo.x bb.hi.x (r.get_point_on_ray 0).x with h1 | h1 <;>
    rcases Interval.new_zero_slope bb.lo.y bb.hi.y (r.get_point_on_ray 0).y with h2 | h2 <;>
    rcases Interval.new_zero_slope bb.lo.z bb.hi.z (r.get_point_on_ray 0).z with h3 | h3 <;>
      simp [Ray.get_direction, hx, hy, hz] at h1 h2 h3 ⊢ <;>
      rw [h1, h2, h3] <;> simp [Interval.intersect]

theorem AABB.intersect_none_of_no_member (bb : AABB) (r : Ray)
    (h : ∀ t : ℚ, ¬ Interval.memQ t (bb.slab_interval r)) :
    bb.intersect r = none := by
  unfold AABB.intersect
  have hwf := bb.slab_wf r
  rcases hs : bb.slab_interval r with _ | ⟨lo, hi⟩ | _
  · exact absurd (by rw [hs]; trivial) (h 0)
  · rw [hs] at hwf
    exact absurd (by rw [hs]; exact ⟨le_refl lo, hwf⟩) (h lo)
  · rfl

/-- Pruning soundness: if a ray's line misses an enclosing well-formed box,
it misses every enclosed well-formed box. -/
theorem AABB.intersect_none_mono {i o : AABB} (r : Ray) (hsub : AABB.subset i o)
    (hwi : V3.le i.lo i.hi) (hwo : V3.le o.lo o.hi)
    (h : o.intersect r = none) : i.intersect r = none := by
  rcases hs : o.slab_interval r with _ | ⟨lo, hi⟩ | _
  · have h3 := hs
    unfold AABB.slab_interval at h3
    rw [Interval.intersect_eq_infinite_iff, Interval.intersect_eq_infinite_iff] at h3
    apply AABB.intersect_none_of_dir_zero i r
    · by_contra hne
      exact Interval.new_ne_infinite hne _ _ _ h3.1
    · by_contra hne
      exact Interval.new_ne_infinite hne _ _ _ h3.2.1
    · by_contra hne
      exact Interval.new_ne_infinite hne _ _ _ h3.2.2
  · exfalso
    unfold AABB.intersect at h
    rw [hs] at h
    exact Option.noConfusion h
  · apply AABB.intersect_none_of_no_member
    intro t hmem
    have hco : i.contains_point (r.get_point_on_ray t) := (AABB.mem_slab i r hwi t).mp hmem
    have hoo : o.contains_point (r.get_point_on_ray t) :=
      AABB.contains_point_mono hsub hco
    have : Interval.memQ t (o.slab_interval r) := (AABB.mem_slab o r hwo t).mpr hoo
    rw [hs] at this
    exact this

/-- C3 counterexample: on the unit box, the ray starting at (2, 1/2, 1/2)
with direction (1, 0, 0) has the whole box strictly behind it, yet
AABB::intersect returns Some(-1) — a negative parameter, not the smallest
non-negative bound (which does not exist), and not None. -/
theorem c3_counterexample :
    AABB.intersect ⟨⟨0, 0, 0⟩, ⟨1, 1, 1⟩⟩ ⟨⟨2, 1/2, 1/2⟩, ⟨1, 0, 0⟩⟩ = some (-1) ∧
      ((-1 : ℚ) < 0) := by
  constructor
  · with_unfolding_all decide
  · norm_num

/-- C3 (amended): for every box with componentwise lo ≤ hi and every ray
whose direction has a nonzero component, AABB::intersect computes the
three per-axis intervals (an axis-parallel ray yields the whole line or
the empty interval without dividing), intersects them, and returns None
exactly when the ray's line misses the box; otherwise the in-box
parameters form the closed interval [lo, hi] and the result is lo when
lo ≥ 0 (the entry, the smallest in-box parameter and in particular the
smallest non-negative one) and hi otherwise (the exit — the largest
in-box parameter, which is non-negative when the origin is inside the box
but negative when the box lies entirely behind the ray).  The unit-box
examples hold: entry t = 1 from outside, exit t = 1/2 from inside, a
grazing ray along a box edge hits, and an axis-parallel ray outside the
slab misses. -/
theorem c3_box_intersect :
    (∀ (bb : AABB) (r : Ray), V3.le bb.lo bb.hi →
      (r.direction.x ≠ 0 ∨ r.direction.y ≠ 0 ∨ r.direction.z ≠ 0) →
      ((bb.intersect r = none ↔
          ∀ t : ℚ, ¬ bb.contains_point (r.get_point_on_ray t)) ∧
        (∀ lo hi, bb.slab_interval r = Interval.closed lo hi →
          lo ≤ hi ∧
          (∀ t : ℚ, (lo ≤ t ∧ t ≤ hi) ↔ bb.contains_point (r.get_point_on_ray t)) ∧
          bb.intersect r = some (if lo < 0 then hi else lo) ∧
          (0 ≤ lo → ∀ s : ℚ, bb.contains_point (r.get_point_on_ray s) → lo ≤ s) ∧
          (lo < 0 → ∀ s : ℚ, bb.contains_point (r.get_point_on_ray s) → s ≤ hi)))) ∧
    AABB.intersect ⟨⟨0, 0, 0⟩, ⟨1, 1, 1⟩⟩ ⟨⟨-1, 1/2, 1/2⟩, ⟨1, 0, 0⟩⟩ = some 1 ∧
    AABB.intersect ⟨⟨0, 0, 0⟩, ⟨1, 1, 1⟩⟩ ⟨⟨1/2, 1/2, 1/2⟩, ⟨1, 0, 0⟩⟩ = some (1/2) ∧
    AABB.intersect ⟨⟨0, 0, 0⟩, ⟨1, 1, 1⟩⟩ ⟨⟨-1, 1, 1/2⟩, ⟨1, 0, 0⟩⟩ = some 1 ∧
    AABB.intersect ⟨⟨0, 0, 0⟩, ⟨1, 1, 1⟩⟩ ⟨⟨2, 1/2, 1/2⟩, ⟨0, 0, 1⟩⟩ = none := by
  refine ⟨?_, ?_, ?_, ?_, ?_⟩
  · intro bb r hwf hdir
    constructor
    · rcases hs : bb.slab_interval r with _ | ⟨lo, hi⟩ | _
      · exact absurd hs (AABB.slab_ne_infinite bb r hdir)
      · constructor
        · intro hnone
          exfalso
          unfold AABB.intersect at hnone
          rw [hs] at hnone
          exact Option.noConfusion hnone
        · intro hno
          exfalso
          have hwfi := bb.slab_wf r
          rw [hs] at hwfi
          have hmem : Interval.memQ lo (bb.slab_interval r) := by
            rw [hs]
            exact ⟨le_refl lo, hwfi⟩
          exact hno lo ((AABB.mem_slab bb r hwf lo).mp hmem)
      · constructor
        · intro _ t hc
          have : Interval.memQ t (bb.slab_interval r) := (AABB.mem_slab bb r hwf t).mpr hc
          rw [hs] at this
          exact this
        · intro _
          unfold AABB.intersect
          rw [hs]
    · intro lo hi hs
      have hwfi := bb.slab_wf r
      rw [hs] at hwfi
      have hmem : ∀ t : ℚ, (lo ≤ t ∧ t ≤ hi) ↔ bb.contains_point (r.get_point_on_ray t) := by
        intro t
        rw [← AABB.mem_slab bb r hwf t, hs]
        exact Iff.rfl
      refine ⟨hwfi, hmem, ?_, ?_, ?_⟩
      · unfold AABB.intersect
        rw [hs]
      · intro hlo s hc
        exact ((hmem s).mpr hc).1
      · intro hlo s hc
        exact ((hmem s).mpr hc).2
  · with_unfolding_all decide
  · with_unfolding_all decide
  · with_unfolding_all decide
  · with_unfolding_all decide

/-- Witness for c3_box_intersect at the unit box and the entry ray of the
claim's own example. -/
theorem c3_witness :
    AABB.intersect ⟨⟨0, 0, 0⟩, ⟨1, 1, 1⟩⟩ ⟨⟨-1, 1/2, 1/2⟩, ⟨1, 0, 0⟩⟩ = none ↔
      ∀ t : ℚ, ¬ AABB.contains_point ⟨⟨0, 0, 0⟩, ⟨1, 1, 1⟩⟩
        (Ray.get_point_on_ray ⟨⟨-1, 1/2, 1/2⟩, ⟨1, 0, 0⟩⟩ t) :=
  (c3_box_intersect.1 ⟨⟨0, 0, 0⟩, ⟨1, 1, 1⟩⟩ ⟨⟨-1, 1/2, 1/2⟩, ⟨1, 0, 0⟩⟩
    (by with_unfolding_all decide) (by norm_num)).1

/-- C10: for every box and every ray whose direction has some nonzero
component, the combined slab interval is never Infinite, so the
unreachable panic arm of AABB::intersect is dead and the function returns
Some or None; and Ray::new applied to a nonzero vector (under a square
root that is positive on positive input, as f32 sqrt is) always produces
such a direction. -/
theorem c10_box_test_total :
    (∀ (bb : AABB) (r : Ray),
      (r.direction.x ≠ 0 ∨ r.direction.y ≠ 0 ∨ r.direction.z ≠ 0) →
      bb.slab_interval r ≠ Interval.infinite) ∧
    (∀ F : FloatOps, (∀ q : ℚ, 0 < q → 0 < F.sqrt q) →
      ∀ p v : V3, (v.x ≠ 0 ∨ v.y ≠ 0 ∨ v.z ≠ 0) →
      ((Ray.new F p v).direction.x ≠ 0 ∨ (Ray.new F p v).direction.y ≠ 0 ∨
        (Ray.new F p v).direction.z ≠ 0)) := by
  constructor
  · exact fun bb r hdir => AABB.slab_ne_infinite bb r hdir
  · intro F hF p v hv
    have hdot : 0 < v.dot v := by
      unfold V3.dot
      rcases hv with h | h | h
      · have := mul_self_pos.mpr h
        nlinarith [mul_self_nonneg v.y, mul_self_nonneg v.z]
      · have := mul_self_pos.mpr h
        nlinarith [mul_self_nonneg v.x, mul_self_nonneg v.z]
      · have := mul_self_pos.mpr h
        nlinarith [mul_self_nonneg v.x, mul_self_nonneg v.y]
    have hsq : 0 < F.sqrt (v.dot v) := hF _ hdot
    have hrecip : (1 : ℚ) / F.sqrt (v.dot v) ≠ 0 := one_div_ne_zero (ne_of_gt hsq)
    unfold Ray.new normalize magnitude
    rcases hv with h | h | h
    · exact Or.inl (by simpa using mul_ne_zero hrecip h)
    · exact Or.inr (Or.inl (by simpa using mul_ne_zero hrecip h))
    · exact Or.inr (Or.inr (by simpa using mul_ne_zero hrecip h))

/-- Witness for c10_box_test_total on the unit box, an axis ray, and the
concrete perfect-square square root. -/
theorem c10_witness :
    AABB.slab_interval ⟨⟨0, 0, 0⟩, ⟨1, 1, 1⟩⟩ ⟨⟨2, 1/2, 1/2⟩, ⟨1, 0, 0⟩⟩ ≠
        Interval.infinite ∧
      ((Ray.new F_demo 0 ⟨1, 0, 0⟩).direction.x ≠ 0 ∨
        (Ray.new F_demo 0 ⟨1, 0, 0⟩).direction.y ≠ 0 ∨
        (Ray.new F_demo 0 ⟨1, 0, 0⟩).direction.z ≠ 0) :=
  ⟨c10_box_test_total.1 ⟨⟨0, 0, 0⟩, ⟨1, 1, 1⟩⟩ ⟨⟨2, 1/2, 1/2⟩, ⟨1, 0, 0⟩⟩
      (by norm_num),
    c10_box_test_total.2 F_demo (fun q hq => rat_sqrt_pos q hq) 0 ⟨1, 0, 0⟩
      (by norm_num)⟩

/-- An empty scene used by witnesses. -/
def world_empty : World :=
  ⟨⟨id, id, 0, 0⟩, [], [], Color.rgb (1/5) (1/5) (1/5)⟩

/-- C5: a zero bounce budget returns the scene's background colour before
any intersection test, and with a positive budget a nearest-hit query that
finds nothing also returns the background colour — the missing hit is the
ordinary None branch of the optional query result, not a failure. -/
theorem c5_background_paths :
    ∀ (F : FloatOps) (w : World) (r : Ray) (n : ℕ),
      (n = 0 ∨ closest_intersection w.objects r = none) →
      (World.trace_ray F w r n).color = w.background_color := by
  intro F w r n h
  rcases h with h | h
  · subst h
    rfl
  · cases n with
    | zero => rfl
    | succ d =>
      simp only [World.trace_ray, h]

/-- Witness for c5_background_paths: an empty scene at budgets 0 and 3. -/
theorem c5_witness :
    (World.trace_ray F_demo world_empty ⟨⟨0, 0, 0⟩, ⟨0, 0, 1⟩⟩ 0).color =
        world_empty.background_color ∧
      (World.trace_ray F_demo world_empty ⟨⟨0, 0, 0⟩, ⟨0, 0, 1⟩⟩ 3).color =
        world_empty.background_color :=
  ⟨c5_background_paths F_demo world_empty ⟨⟨0, 0, 0⟩, ⟨0, 0, 1⟩⟩ 0 (Or.inl rfl),
    c5_background_paths F_demo world_empty ⟨⟨0, 0, 0⟩, ⟨0, 0, 1⟩⟩ 3 (Or.inr rfl)⟩

theorem partition_map_snd_perm (l : List Object) (q : ℕ × Object → Bool) :
    ((l.enum.partition q).1.map Prod.snd ++ (l.enum.partition q).2.map Prod.snd).Perm
      l := by
  rw [List.partition_eq_filter_filter, ← List.map_append]
  have hp := (List.filter_append_perm q l.enum).map Prod.snd
  rw [List.enum_map_snd] at hp
  have hc : (not ∘ q) = (fun x => !q x) := rfl
  rw [hc]
  exact hp

/-- Both split policies produce the two halves of a permutation of the
input: partition keeps every element exactly once. -/
theorem bvh_split_perm (objects : List Object) (st : SplitType) :
    ((bvh_split objects st).1 ++ (bvh_split objects st).2).Perm objects := by
  unfold bvh_split
  split
  · rw [List.partition_eq_filter_filter]
    simpa using List.filter_append_perm _ objects
  · unfold bvh_split_by_sah
    dsimp only
    exact partition_map_snd_perm objects _

/-- The invariant of C1: whenever construction succeeds, the leaves hold a
permutation of the input (no object dropped or duplicated) and the stored
root size — the quantity Bvh::new asserts against the input length — is
the input length. -/
theorem BvhTree.build_preserves (st : SplitType) :
    ∀ (fuel : ℕ) (objects : List Object) (t : BvhTree),
      BvhTree.build_with st fuel objects = some t →
      t.leaf_objects.Perm objects ∧ t.get_num_objects = objects.length := by
  intro fuel
  induction fuel with
  | zero => intro objects t h; exact Option.noConfusion h
  | succ n ih =>
    intro objects t h
    rw [BvhTree.build_with] at h
    dsimp only at h
    split at h
    · obtain rfl := Option.some_injective _ h
      exact ⟨List.Perm.refl _, rfl⟩
    · split at h
      · rename_i left right hl hr
        obtain rfl := Option.some_injective _ h
        obtain ⟨pl, _⟩ := ih _ _ hl
        obtain ⟨pr, _⟩ := ih _ _ hr
        refine ⟨?_, rfl⟩
        have hstep : (left.leaf_objects ++ right.leaf_objects).Perm
            ((bvh_split objects st).1 ++ (bvh_split objects st).2) :=
          pl.append pr
        exact hstep.trans (bvh_split_perm objects st)
      · exact Option.noConfusion h

/-- An object with a degenerate one-point bounding box; two copies share a
centroid, the failure case of C1 and C7. -/
def dup_obj : Object :=
  ⟨⟨0, 0, 0⟩, ⟨2, 2, 2⟩, fun _ => none, fun _ => 0,
    fun _ => Color.rgb 0 0 0, MaterialType.plain⟩

/-- On two objects with identical centroids the midpoint partition sends
both to the same side, the recursion never shrinks its input, and
construction fails for every fuel. -/
theorem build_dup_none :
    ∀ fuel : ℕ, BvhTree.build fuel [dup_obj, dup_obj] = none := by
  intro fuel
  induction fuel with
  | zero => rfl
  | succ n ih =>
    have hsplit : bvh_split [dup_obj, dup_obj] SplitType.sah = ([], [dup_obj, dup_obj]) := by
      with_unfolding_all rfl
    rw [BvhTree.build] at ih ⊢
    rw [BvhTree.build_with]
    dsimp only
    rw [if_neg (by norm_num), hsplit]
    rcases hfst : BvhTree.build_with SplitType.sah n [] with _ | left <;>
      simp [hfst, ih]

/-- C1 counterexample: two copies of one concrete object share a centroid;
the split sends both to the right half with an empty left half, so the
recursion never shrinks its input and construction — modelled with fuel —
fails at every fuel: BvhTree::new on this input never returns (stack
overflow), no tree is yielded, and the root-count assert is never
reached. -/
theorem c1_counterexample :
    bvh_split [dup_obj, dup_obj] SplitType.sah = ([], [dup_obj, dup_obj]) ∧
      (∀ fuel : ℕ, BvhTree.build fuel [dup_obj, dup_obj] = none) :=
  ⟨by with_unfolding_all rfl, build_dup_none⟩

/-- C1 (amended): whenever BVH construction terminates — in particular
always for empty and singleton inputs — the tree's leaves hold exactly
the input objects and the asserted root count equals the input length;
construction however diverges on inputs of two or more objects whose
centroids all coincide. -/
theorem c1_bvh_completeness :
    (∀ (st : SplitType) (fuel : ℕ) (objects : List Object) (t : BvhTree),
      BvhTree.build_with st fuel objects = some t →
      t.leaf_objects.Perm objects ∧ t.leaf_objects.length = objects.length ∧
        t.get_num_objects = objects.length) ∧
    (∀ (fuel : ℕ) (objects : List Object), objects.length ≤ 1 →
      BvhTree.build (fuel + 1) objects =
        some (BvhTree.leaf (AABB.union (objects.map Object.bounding_box)) objects
          objects.length)) := by
  constructor
  · intro st fuel objects t h
    obtain ⟨hperm, hnum⟩ := BvhTree.build_preserves st fuel objects t h
    exact ⟨hperm, hperm.length_eq, hnum⟩
  · intro fuel objects hlen
    rw [BvhTree.build, BvhTree.build_with, if_pos hlen]

/-- Witness for c1_bvh_completeness: a successful singleton build preserves
the object list and the asserted count. -/
theorem c1_witness :
    BvhTree.build 1 [dup_obj] =
        some (BvhTree.leaf (AABB.union [dup_obj.bounding_box]) [dup_obj] 1) ∧
      ∀ t : BvhTree, BvhTree.build 1 [dup_obj] = some t →
        t.leaf_objects.Perm [dup_obj] ∧ t.leaf_objects.length = 1 ∧
          t.get_num_objects = 1 :=
  ⟨c1_bvh_completeness.2 0 [dup_obj] (by norm_num),
    fun t ht => c1_bvh_completeness.1 SplitType.sah 1 [dup_obj] t ht⟩

/-- Five shared-centroid objects: the input that drives the SAH bucket
computation through its degenerate zero-range division. -/
def five_dup : List Object := [dup_obj, dup_obj, dup_obj, dup_obj, dup_obj]

set_option maxRecDepth 40000 in
/-- C7: the degenerate-axis case has no explicit fallback branch.  With a
zero centroid range the source computes b = 12·0/0 — NaN in f32 — and the
Rust i32 cast maps NaN to 0 (the rational model agrees since 0/0 = 0), so
every object lands in bucket 0: bucket_index of a zero range is always 0,
bvh_split with the SAH policy sends the whole set left with an empty right
half, and BvhTree::new recurses on an unchanged input, never terminating
(no fuel suffices), instead of falling back to the basic midpoint split. -/
theorem c7_degenerate_sah_divergence :
    (∀ c m : ℚ, bucket_index c m 0 = 0) ∧
    bvh_split five_dup SplitType.sah = (five_dup, []) ∧
    (∀ fuel : ℕ, BvhTree.build fuel five_dup = none) := by
  refine ⟨?_, ?_, ?_⟩
  · intro c m
    unfold bucket_index
    norm_num
  · with_unfolding_all rfl
  · intro fuel
    induction fuel with
    | zero => rfl
    | succ n ih =>
      have hsplit : bvh_split five_dup SplitType.sah = (five_dup, []) := by
        with_unfolding_all rfl
      rw [BvhTree.build] at ih ⊢
      rw [BvhTree.build_with]
      dsimp only
      rw [if_neg (by norm_num [five_dup]), hsplit]
      simp only [ih]

/-- Object::get_intersection for a quad with the identity object-to-world
transform (src/object.rs): one-sided plane test, inside-quad test by four
cross products, then the world-space parameter remap through Ray::get_t. -/
def quad_hit (F : FloatOps) (a b c d : V3) (ray : Ray) : Option ℚ :=
  let position := ray.get_point_on_ray 0
  let direction := ray.get_direction
  let normal := normalize F ((b - a).cross (d - a))
  if direction.dot normal < 0 then
    let t := (a - position).dot normal / direction.dot normal
    if 0 < t then
      let p := ray.get_point_on_ray t
      if 0 ≤ ((b - a).cross (p - a)).dot normal ∧
          0 ≤ ((c - b).cross (p - b)).dot normal ∧
          0 ≤ ((d - c).cross (p - c)).dot normal ∧
          0 ≤ ((a - d).cross (p - d)).dot normal then
        some (ray.get_t (ray.get_point_on_ray t))
      else none
    else none
  else none

/-- Object::get_normal for a quad with the identity transform: the
normalized cross product, transformed (identity) and normalized again. -/
def quad_normal (F : FloatOps) (a b d : V3) : V3 :=
  normalize F (normalize F ((b - a).cross (d - a)))

/-- Object::new_quad with the identity transform: bounding box from the
componentwise range of the corners, quad intersection and normal, the
grey TextureType::None sample colour. -/
def mk_quad (F : FloatOps) (a b c d : V3) (m : MaterialType) : Object :=
  ⟨(component_wise_range [a, b, c, d]).1, (component_wise_range [a, b, c, d]).2,
    quad_hit F a b c d, fun _ => quad_normal F a b d,
    fun _ => Color.rgb (1/2) (1/2) (1/2), m⟩

/-- C6 (amended): the visibility filter keeps an ambient light always, and
keeps a positional light exactly when the shadow query from the light
toward the point returns some obstruction that is not strictly closer than
the light (within epsilon = 1e-4).  In particular a light whose shadow
query returns no intersection at all is excluded, not included. -/
theorem c6_light_filter :
    ∀ (F : FloatOps) (q : Ray → Option (Object × ℚ)) (c : Color) (pos point : V3),
      Light.reaches_point F q ⟨c, LightType.ambient⟩ point = true ∧
      (Light.reaches_point F q ⟨c, LightType.point pos⟩ point = true ↔
        ∃ o t, q (Ray.new F pos (point - pos)) = some (o, t) ∧
          ¬(t + 1 / 10000 < dist_pts F point pos)) := by
  intro F q c pos point
  constructor
  · rfl
  · unfold Light.reaches_point Light.in_shadow
    dsimp only
    rcases hq : q (Ray.new F pos (point - pos)) with _ | ot
    · simp [hq]
    · simp only [hq]
      constructor
      · intro h
        refine ⟨ot.1, ot.2, rfl, ?_⟩
        simpa using h
      · rintro ⟨o, t, hot, hlt⟩
        obtain rfl : ot = (o, t) := by
          have := hot
          exact Option.some_injective _ this
        simpa using hlt

/-- The one-quad scene of the C6 counterexample: an opaque floor quad in
the plane z = 0 with its front face up. -/
def floor_world_objects (F : FloatOps) : List Object :=
  [mk_quad F ⟨0, 0, 0⟩ ⟨1, 0, 0⟩ ⟨1, 1, 0⟩ ⟨0, 1, 0⟩ MaterialType.plain]

/-- C6 counterexample: a point light directly below the floor quad, tested
against the point (1/2, 1/2, 0) on the quad.  The shadow ray from the
light travels upward, the quad's back face culls it, the query returns no
intersection at all — and reaches_point answers false: the unobstructed
query-misses light is excluded, where the claim requires it included. -/
theorem c6_counterexample :
    Light.reaches_point F_demo
        (closest_intersection (floor_world_objects F_demo))
        ⟨Color.rgb 1 1 1, LightType.point ⟨1/2, 1/2, -5⟩⟩ ⟨1/2, 1/2, 0⟩ = false ∧
      closest_intersection (floor_world_objects F_demo)
        (Ray.new F_demo ⟨1/2, 1/2, -5⟩
          ((⟨1/2, 1/2, 0⟩ : V3) - ⟨1/2, 1/2, -5⟩)) = none := by
  constructor
  · with_unfolding_all rfl
  · with_unfolding_all rfl

theorem V3.one_smul (v : V3) : (1 : ℚ) • v = v := by
  cases v
  show V3.mk _ _ _ = _
  simp

theorem normalize_of_dot_one (F : FloatOps) (hs : F.sqrt 1 = 1) (v : V3)
    (hv : v.dot v = 1) : normalize F v = v := by
  unfold normalize magnitude
  rw [hv, hs]
  norm_num [V3.one_smul]

/-- The two mirror-facing reflective planes of C4: unit quads at z = 0
(facing up) and z = 10 (facing down). -/
def mirror_bottom (F : FloatOps) : Object :=
  mk_quad F ⟨0, 0, 0⟩ ⟨1, 0, 0⟩ ⟨1, 1, 0⟩ ⟨0, 1, 0⟩ MaterialType.reflective

def mirror_top (F : FloatOps) : Object :=
  mk_quad F ⟨0, 0, 10⟩ ⟨0, 1, 10⟩ ⟨1, 1, 10⟩ ⟨1, 0, 10⟩ MaterialType.reflective

/-- The scene of solely the two mirror-facing reflective planes, no
lights. -/
def mirror_world (F : FloatOps) : World :=
  ⟨⟨id, id, 0, 0⟩, [mirror_bottom F, mirror_top F], [], Color.rgb (1/5) (1/5) (1/5)⟩

/-- A ray bouncing between the mirrors, travelling up. -/
def up_ray (z : ℚ) : Ray := ⟨⟨1/2, 1/2, z⟩, ⟨0, 0, 1⟩⟩

/-- A ray bouncing between the mirrors, travelling down. -/
def down_ray (z : ℚ) : Ray := ⟨⟨1/2, 1/2, z⟩, ⟨0, 0, -1⟩⟩

theorem bottom_up_none (F : FloatOps) (hs : F.sqrt 1 = 1) (z : ℚ) :
    (mirror_bottom F).hit (up_ray z) = none := by
  show quad_hit F _ _ _ _ _ = none
  unfold quad_hit
  have hc : (((⟨1, 0, 0⟩ : V3) - ⟨0, 0, 0⟩).cross ((⟨0, 1, 0⟩ : V3) - ⟨0, 0, 0⟩)) =
      ⟨0, 0, 1⟩ := by
    with_unfolding_all decide
  rw [hc, normalize_of_dot_one F hs _ (by with_unfolding_all decide)]
  dsimp only
  have hd : (Ray.get_direction (up_ray z)).dot ⟨0, 0, 1⟩ = 1 := by
    unfold up_ray Ray.get_direction V3.dot
    norm_num
  rw [hd]
  norm_num

theorem top_down_none (F : FloatOps) (hs : F.sqrt 1 = 1) (z : ℚ) :
    (mirror_top F).hit (down_ray z) = none := by
  show quad_hit F _ _ _ _ _ = none
  unfold quad_hit
  have hc : (((⟨0, 1, 10⟩ : V3) - ⟨0, 0, 10⟩).cross ((⟨1, 0, 10⟩ : V3) - ⟨0, 0, 10⟩)) =
      ⟨0, 0, -1⟩ := by
    with_unfolding_all decide
  rw [hc, normalize_of_dot_one F hs _ (by with_unfolding_all decide)]
  dsimp only
  have hd : (Ray.get_direction (down_ray z)).dot ⟨0, 0, -1⟩ = 1 := by
    unfold down_ray Ray.get_direction V3.dot
    norm_num
  rw [hd]
  norm_num

theorem top_up_hit (F : FloatOps) (hs : F.sqrt 1 = 1) (z : ℚ) (h1 : z < 10) :
    (mirror_top F).hit (up_ray z) = some (10 - z) := by
  show quad_hit F _ _ _ _ _ = some (10 - z)
  unfold quad_hit
  have hc : (((⟨0, 1, 10⟩ : V3) - ⟨0, 0, 10⟩).cross ((⟨1, 0, 10⟩ : V3) - ⟨0, 0, 10⟩)) =
      ⟨0, 0, -1⟩ := by
    with_unfolding_all decide
  rw [hc, normalize_of_dot_one F hs _ (by with_unfolding_all decide)]
  dsimp only
  have hd : (Ray.get_direction (up_ray z)).dot ⟨0, 0, -1⟩ = -1 := by
    unfold up_ray Ray.get_direction V3.dot
    norm_num
  rw [hd]
  have ht : ((⟨0, 0, 10⟩ - Ray.get_point_on_ray (up_ray z) 0).dot ⟨0, 0, -1⟩) / (-1) =
      10 - z := by
    unfold up_ray Ray.get_point_on_ray V3.dot
    simp only [V3.add_x, V3.add_y, V3.add_z, V3.sub_x, V3.sub_y, V3.sub_z,
      V3.smul_x, V3.smul_y, V3.smul_z]
    ring
  rw [if_pos (by norm_num : (-1 : ℚ) < 0), ht, if_pos (by linarith : (0:ℚ) < 10 - z)]
  have hin : (0 ≤ ((((⟨1, 1, 10⟩ : V3) - ⟨0, 1, 10⟩)).cross
        (Ray.get_point_on_ray (up_ray z) (10 - z) - ⟨0, 1, 10⟩)).dot ⟨0, 0, -1⟩) := by
    unfold up_ray Ray.get_point_on_ray V3.cross V3.dot
    simp only [V3.add_x, V3.add_y, V3.add_z, V3.sub_x, V3.sub_y, V3.sub_z,
      V3.smul_x, V3.smul_y, V3.smul_z]
    ring_nf
    norm_num
  have hin1 : (0 ≤ ((((⟨0, 1, 10⟩ : V3) - ⟨0, 0, 10⟩)).cross
        (Ray.get_point_on_ray (up_ray z) (10 - z) - ⟨0, 0, 10⟩)).dot ⟨0, 0, -1⟩) := by
    unfold up_ray Ray.get_point_on_ray V3.cross V3.dot
    simp only [V3.add_x, V3.add_y, V3.add_z, V3.sub_x, V3.sub_y, V3.sub_z,
      V3.smul_x, V3.smul_y, V3.smul_z]
    ring_nf
    norm_num
  have hin2 : (0 ≤ ((((⟨1, 0, 10⟩ : V3) - ⟨1, 1, 10⟩)).cross
        (Ray.get_point_on_ray (up_ray z) (10 - z) - ⟨1, 1, 10⟩)).dot ⟨0, 0, -1⟩) := by
    unfold up_ray Ray.get_point_on_ray V3.cross V3.dot
    simp only [V3.add_x, V3.add_y, V3.add_z, V3.sub_x, V3.sub_y, V3.sub_z,
      V3.smul_x, V3.smul_y, V3.smul_z]
    ring_nf
    norm_num
  have hin3 : (0 ≤ ((((⟨0, 0, 10⟩ : V3) - ⟨1, 0, 10⟩)).cross
        (Ray.get_point_on_ray (up_ray z) (10 - z) - ⟨1, 0, 10⟩)).dot ⟨0, 0, -1⟩) := by
    unfold up_ray Ray.get_point_on_ray V3.cross V3.dot
    simp only [V3.add_x, V3.add_y, V3.add_z, V3.sub_x, V3.sub_y, V3.sub_z,
      V3.smul_x, V3.smul_y, V3.smul_z]
    ring_nf
    norm_num
  rw [if_pos ⟨hin1, hin, hin2, hin3⟩]
  have hgt : Ray.get_t (up_ray z) (Ray.get_point_on_ray (up_ray z) (10 - z)) = 10 - z := by
    unfold up_ray Ray.get_t Ray.get_point_on_ray V3.dot
    simp only [V3.add_x, V3.add_y, V3.add_z, V3.sub_x, V3.sub_y, V3.sub_z,
      V3.smul_x, V3.smul_y, V3.smul_z]
    ring
  rw [hgt]

theorem bottom_down_hit (F : FloatOps) (hs : F.sqrt 1 = 1) (z : ℚ) (h0 : 0 < z) :
    (mirror_bottom F).hit (down_ray z) = some z := by
  show quad_hit F _ _ _ _ _ = some z
  unfold quad_hit
  have hc : (((⟨1, 0, 0⟩ : V3) - ⟨0, 0, 0⟩).cross ((⟨0, 1, 0⟩ : V3) - ⟨0, 0, 0⟩)) =
      ⟨0, 0, 1⟩ := by
    with_unfolding_all decide
  rw [hc, normalize_of_dot_one F hs _ (by with_unfolding_all decide)]
  dsimp only
  have hd : (Ray.get_direction (down_ray z)).dot ⟨0, 0, 1⟩ = -1 := by
    unfold down_ray Ray.get_direction V3.dot
    norm_num
  rw [hd]
  have ht : ((⟨0, 0, 0⟩ - Ray.get_point_on_ray (down_ray z) 0).dot ⟨0, 0, 1⟩) / (-1) =
      z := by
    unfold down_ray Ray.get_point_on_ray V3.dot
    simp only [V3.add_x, V3.add_y, V3.add_z, V3.sub_x, V3.sub_y, V3.sub_z,
      V3.smul_x, V3.smul_y, V3.smul_z]
    ring
  rw [if_pos (by norm_num : (-1 : ℚ) < 0), ht, if_pos h0]
  have hin : (0 ≤ ((((⟨1, 0, 0⟩ : V3) - ⟨0, 0, 0⟩)).cross
        (Ray.get_point_on_ray (down_ray z) z - ⟨0, 0, 0⟩)).dot ⟨0, 0, 1⟩) := by
    unfold down_ray Ray.get_point_on_ray V3.cross V3.dot
    simp only [V3.add_x, V3.add_y, V3.add_z, V3.sub_x, V3.sub_y, V3.sub_z,
      V3.smul_x, V3.smul_y, V3.smul_z]
    ring_nf
    norm_num
  have hin1 : (0 ≤ ((((⟨1, 1, 0⟩ : V3) - ⟨1, 0, 0⟩)).cross
        (Ray.get_point_on_ray (down_ray z) z - ⟨1, 0, 0⟩)).dot ⟨0, 0, 1⟩) := by
    unfold down_ray Ray.get_point_on_ray V3.cross V3.dot
    simp only [V3.add_x, V3.add_y, V3.add_z, V3.sub_x, V3.sub_y, V3.sub_z,
      V3.smul_x, V3.smul_y, V3.smul_z]
    ring_nf
    norm_num
  have hin2 : (0 ≤ ((((⟨0, 1, 0⟩ : V3) - ⟨1, 1, 0⟩)).cross
        (Ray.get_point_on_ray (down_ray z) z - ⟨1, 1, 0⟩)).dot ⟨0, 0, 1⟩) := by
    unfold down_ray Ray.get_point_on_ray V3.cross V3.dot
    simp only [V3.add_x, V3.add_y, V3.add_z, V3.sub_x, V3.sub_y, V3.sub_z,
      V3.smul_x, V3.smul_y, V3.smul_z]
    ring_nf
    norm_num
  have hin3 : (0 ≤ ((((⟨0, 0, 0⟩ : V3) - ⟨0, 1, 0⟩)).cross
        (Ray.get_point_on_ray (down_ray z) z - ⟨0, 1, 0⟩)).dot ⟨0, 0, 1⟩) := by
    unfold down_ray Ray.get_point_on_ray V3.cross V3.dot
    simp only [V3.add_x, V3.add_y, V3.add_z, V3.sub_x, V3.sub_y, V3.sub_z,
      V3.smul_x, V3.smul_y, V3.smul_z]
    ring_nf
    norm_num
  rw [if_pos ⟨hin, hin1, hin2, hin3⟩]
  have hgt : Ray.get_t (down_ray z) (Ray.get_point_on_ray (down_ray z) z) = z := by
    unfold down_ray Ray.get_t Ray.get_point_on_ray V3.dot
    simp only [V3.add_x, V3.add_y, V3.add_z, V3.sub_x, V3.sub_y, V3.sub_z,
      V3.smul_x, V3.smul_y, V3.smul_z]
    ring
  rw [hgt]

theorem V3.ext' (a b : V3) (hx : a.x = b.x) (hy : a.y = b.y) (hz : a.z = b.z) :
    a = b := by
  cases a
  cases b
  simp_all

theorem mirror_up_closest (F : FloatOps) (hs : F.sqrt 1 = 1) (z : ℚ) (h1 : z < 10) :
    closest_intersection (mirror_world F).objects (up_ray z) =
      some (mirror_top F, 10 - z) := by
  have hobj : (mirror_world F).objects = [mirror_bottom F, mirror_top F] := rfl
  rw [hobj]
  unfold closest_intersection
  rw [List.filterMap_cons, bottom_up_none F hs z]
  rw [List.filterMap_cons, top_up_hit F hs z h1]
  rfl

theorem mirror_down_closest (F : FloatOps) (hs : F.sqrt 1 = 1) (z : ℚ) (h0 : 0 < z) :
    closest_intersection (mirror_world F).objects (down_ray z) =
      some (mirror_bottom F, z) := by
  have hobj : (mirror_world F).objects = [mirror_bottom F, mirror_top F] := rfl
  rw [hobj]
  unfold closest_intersection
  rw [List.filterMap_cons, bottom_down_hit F hs z h0]
  rw [List.filterMap_cons, top_down_none F hs z]
  rfl

theorem top_normal (F : FloatOps) (hs : F.sqrt 1 = 1) (p : V3) :
    (mirror_top F).normal_at p = ⟨0, 0, -1⟩ := by
  show quad_normal F _ _ _ = _
  unfold quad_normal
  have hc : (((⟨0, 1, 10⟩ : V3) - ⟨0, 0, 10⟩).cross ((⟨1, 0, 10⟩ : V3) - ⟨0, 0, 10⟩)) =
      ⟨0, 0, -1⟩ := by
    with_unfolding_all decide
  rw [hc, normalize_of_dot_one F hs ⟨0, 0, -1⟩ (by with_unfolding_all decide),
    normalize_of_dot_one F hs ⟨0, 0, -1⟩ (by with_unfolding_all decide)]

theorem bottom_normal (F : FloatOps) (hs : F.sqrt 1 = 1) (p : V3) :
    (mirror_bottom F).normal_at p = ⟨0, 0, 1⟩ := by
  show quad_normal F _ _ _ = _
  unfold quad_normal
  have hc : (((⟨1, 0, 0⟩ : V3) - ⟨0, 0, 0⟩).cross ((⟨0, 1, 0⟩ : V3) - ⟨0, 0, 0⟩)) =
      ⟨0, 0, 1⟩ := by
    with_unfolding_all decide
  rw [hc, normalize_of_dot_one F hs ⟨0, 0, 1⟩ (by with_unfolding_all decide),
    normalize_of_dot_one F hs ⟨0, 0, 1⟩ (by with_unfolding_all decide)]

theorem reflect_up (F : FloatOps) (hs : F.sqrt 1 = 1) :
    reflect F ⟨0, 0, 1⟩ ⟨0, 0, -1⟩ = ⟨0, 0, -1⟩ := by
  unfold reflect
  have hc : (⟨0, 0, 1⟩ : V3) - (2 * ((⟨0, 0, 1⟩ : V3).dot ⟨0, 0, -1⟩)) • ⟨0, 0, -1⟩ =
      ⟨0, 0, -1⟩ := by
    with_unfolding_all decide
  rw [hc, normalize_of_dot_one F hs _ (by with_unfolding_all decide)]

theorem reflect_down (F : FloatOps) (hs : F.sqrt 1 = 1) :
    reflect F ⟨0, 0, -1⟩ ⟨0, 0, 1⟩ = ⟨0, 0, 1⟩ := by
  unfold reflect
  have hc : (⟨0, 0, -1⟩ : V3) - (2 * ((⟨0, 0, -1⟩ : V3).dot ⟨0, 0, 1⟩)) • ⟨0, 0, 1⟩ =
      ⟨0, 0, 1⟩ := by
    with_unfolding_all decide
  rw [hc, normalize_of_dot_one F hs _ (by with_unfolding_all decide)]

theorem up_reflected_ray (F : FloatOps) (hs : F.sqrt 1 = 1) (z : ℚ) :
    (Ray.new F (Ray.get_point_on_ray (up_ray z) (10 - z)) ⟨0, 0, -1⟩).offset F
        (1 / 10000) = down_ray (10 - 1 / 10000) := by
  have hp : Ray.get_point_on_ray (up_ray z) (10 - z) = ⟨1/2, 1/2, 10⟩ := by
    unfold up_ray Ray.get_point_on_ray
    apply V3.ext' <;>
      simp only [V3.add_x, V3.add_y, V3.add_z, V3.smul_x, V3.smul_y, V3.smul_z] <;> ring
  rw [hp]
  unfold Ray.offset Ray.new down_ray
  rw [normalize_of_dot_one F hs _ (by with_unfolding_all decide)]
  congr 1
  · apply V3.ext' <;>
      simp only [V3.add_x, V3.add_y, V3.add_z, V3.smul_x, V3.smul_y, V3.smul_z] <;>
      norm_num
  · exact normalize_of_dot_one F hs _ (by with_unfolding_all decide)

theorem down_reflected_ray (F : FloatOps) (hs : F.sqrt 1 = 1) (z : ℚ) :
    (Ray.new F (Ray.get_point_on_ray (down_ray z) z) ⟨0, 0, 1⟩).offset F
        (1 / 10000) = up_ray (1 / 10000) := by
  have hp : Ray.get_point_on_ray (down_ray z) z = ⟨1/2, 1/2, 0⟩ := by
    unfold down_ray Ray.get_point_on_ray
    apply V3.ext' <;>
      simp only [V3.add_x, V3.add_y, V3.add_z, V3.smul_x, V3.smul_y, V3.smul_z] <;> ring
  rw [hp]
  unfold Ray.offset Ray.new up_ray
  rw [normalize_of_dot_one F hs _ (by with_unfolding_all decide)]
  congr 1
  · apply V3.ext' <;>
      simp only [V3.add_x, V3.add_y, V3.add_z, V3.smul_x, V3.smul_y, V3.smul_z] <;>
      norm_num
  · exact normalize_of_dot_one F hs _ (by with_unfolding_all decide)

/-- One full bounce between the mirrors, by induction: from any ray on the
bouncing trajectory, a budget of n produces the background colour after
exactly n recursive trace calls, n intersection queries and nesting depth
n. -/
theorem mirror_trace (F : FloatOps) (hs : F.sqrt 1 = 1) :
    ∀ n : ℕ,
      (∀ z : ℚ, 0 ≤ z → z < 10 →
        World.trace_ray F (mirror_world F) (up_ray z) n =
          ⟨(mirror_world F).background_color, n, n, n⟩) ∧
      (∀ z : ℚ, 0 < z → z ≤ 10 →
        World.trace_ray F (mirror_world F) (down_ray z) n =
          ⟨(mirror_world F).background_color, n, n, n⟩) := by
  intro n
  induction n with
  | zero => exact ⟨fun z h0 h1 => rfl, fun z h0 h1 => rfl⟩
  | succ m ih =>
    constructor
    · intro z h0 h1
      simp only [World.trace_ray]
      rw [mirror_up_closest F hs z h1]
      dsimp only
      rw [show (mirror_top F).mat = MaterialType.reflective from rfl]
      rw [MaterialType.get_color.eq_def]
      dsimp only
      rw [top_normal F hs]
      have hdir : Ray.get_direction (up_ray z) = ⟨0, 0, 1⟩ := rfl
      rw [hdir, reflect_up F hs, up_reflected_ray F hs z]
      rw [(ih).2 (10 - 1 / 10000) (by norm_num) (by norm_num)]
      show TraceResult.mk _ _ _ _ = TraceResult.mk _ _ _ _
      norm_num [mirror_world, Nat.add_comm]
    · intro z h0 h1
      simp only [World.trace_ray]
      rw [mirror_down_closest F hs z h0]
      dsimp only
      rw [show (mirror_bottom F).mat = MaterialType.reflective from rfl]
      rw [MaterialType.get_color.eq_def]
      dsimp only
      rw [bottom_normal F hs]
      have hdir : Ray.get_direction (down_ray z) = ⟨0, 0, -1⟩ := rfl
      rw [hdir, reflect_down F hs, down_reflected_ray F hs z]
      rw [(ih).1 (1 / 10000) (by norm_num) (by norm_num)]
      show TraceResult.mk _ _ _ _ = TraceResult.mk _ _ _ _
      norm_num [mirror_world, Nat.add_comm]

theorem foldr_max_le {l : List ℕ} {m : ℕ} (h : ∀ a ∈ l, a ≤ m) :
    l.foldr max 0 ≤ m := by
  induction l with
  | nil => exact Nat.zero_le m
  | cons a l ih =>
    exact max_le (h a (List.mem_cons_self a l))
      (ih fun b hb => h b (List.mem_cons_of_mem a hb))

/-- Every material evaluation nests its recursive trace calls at most one
level above the continuation it is given. -/
theorem get_color_depth_le (F : FloatOps) (tr : Ray → TraceResult) (d : ℕ)
    (h : ∀ r, (tr r).depth ≤ d) (sc : Color) (ir : Ray) (t : ℚ) (o : Object)
    (ls : List Light) (mt : MaterialType) :
    (MaterialType.get_color F tr mt sc ir t o ls).depth ≤ d + 1 := by
  induction mt, sc, ir, t, o, ls using MaterialType.get_color.induct F tr with
  | case1 parts sc2 ir2 t2 o2 ls2 ihp =>
    rw [MaterialType.get_color.eq_def]
    dsimp only
    apply foldr_max_le
    intro a ha
    simp only [List.map_map, List.mem_map] at ha
    obtain ⟨p, hp, rfl⟩ := ha
    exact ihp p
  | case2 diffuse specular shininess sc2 ir2 t2 o2 ls2 =>
    rw [MaterialType.get_color.eq_def]
    dsimp only
    omega
  | case3 _ _ _ _ _ =>
    rw [MaterialType.get_color.eq_def]
    dsimp only
    refine le_trans (Nat.add_le_add_left (h _) 1) (by omega)
  | case4 _ _ _ _ _ _ =>
    rw [MaterialType.get_color.eq_def]
    dsimp only
    refine le_trans (Nat.add_le_add_left (h _) 1) (by omega)
  | case5 _ _ _ _ _ =>
    rw [MaterialType.get_color.eq_def]
    dsimp only
    omega

/-- The nesting depth of recursive trace_ray calls never exceeds the bounce
budget: each bounce re-enters with the budget decreased by exactly one. -/
theorem trace_depth_le (F : FloatOps) (w : World) :
    ∀ (n : ℕ) (r : Ray), (World.trace_ray F w r n).depth ≤ n := by
  intro n
  induction n with
  | zero => intro r; exact Nat.le_refl 0
  | succ m ih =>
    intro r
    simp only [World.trace_ray]
    cases hc : closest_intersection w.objects r with
    | none => exact Nat.zero_le _
    | some ot =>
      dsimp only
      exact get_color_depth_le F _ m ih _ _ _ _ _ _

/-- C4: trace_ray terminates for every scene, ray and budget because every
recursive bounce decreases the budget by exactly one — the nesting depth of
recursive calls is bounded by the budget; on the scene of two mirror-facing
reflective planes a budget of n performs exactly n recursive calls (and n
intersection queries) before returning the background colour; and a zero
budget returns the background colour immediately, with no intersection
test. -/
theorem c4_trace_termination :
    (∀ (F : FloatOps) (w : World) (r : Ray) (n : ℕ),
      (World.trace_ray F w r n).depth ≤ n) ∧
    (∀ F : FloatOps, F.sqrt 1 = 1 → ∀ n : ℕ,
      World.trace_ray F (mirror_world F) (up_ray 5) n =
        ⟨(mirror_world F).background_color, n, n, n⟩) ∧
    (∀ (F : FloatOps) (w : World) (r : Ray),
      World.trace_ray F w r 0 = ⟨w.background_color, 0, 0, 0⟩) := by
  refine ⟨fun F w r n => trace_depth_le F w n r, ?_, fun F w r => rfl⟩
  intro F hs n
  exact (mirror_trace F hs n).1 5 (by norm_num) (by norm_num)

/-- Witness for c4_trace_termination: the concrete square root model on the
mirror scene at budget 4, and the zero-budget base case. -/
theorem c4_witness :
    World.trace_ray F_demo (mirror_world F_demo) (up_ray 5) 4 =
        ⟨(mirror_world F_demo).background_color, 4, 4, 4⟩ ∧
      World.trace_ray F_demo (mirror_world F_demo) (up_ray 5) 0 =
        ⟨(mirror_world F_demo).background_color, 0, 0, 0⟩ :=
  ⟨c4_trace_termination.2.1 F_demo (by with_unfolding_all decide) 4,
    c4_trace_termination.2.2 F_demo (mirror_world F_demo) (up_ray 5)⟩

@[simp] theorem V4.add4_x (a b : V4) : (a + b).x = a.x + b.x := rfl

@[simp] theorem V4.add4_y (a b : V4) : (a + b).y = a.y + b.y := rfl

@[simp] theorem V4.add4_z (a b : V4) : (a + b).z = a.z + b.z := rfl

@[simp] theorem V4.add4_w (a b : V4) : (a + b).w = a.w + b.w := rfl

@[simp] theorem V4.zero4_x : (0 : V4).x = 0 := rfl

@[simp] theorem V4.zero4_y : (0 : V4).y = 0 := rfl

@[simp] theorem V4.zero4_z : (0 : V4).z = 0 := rfl

@[simp] theorem V4.zero4_w : (0 : V4).w = 0 := rfl

/-- The colour a single-threaded, in-order execution assigns to pixel
(x, y) at one sample per pixel: the unjittered camera ray traced at the
fixed bounce budget of 10, saturated through Color::rgba. -/
def pixel_color (F : FloatOps) (w : World) (x y : ℕ) : Color :=
  let c := (World.trace_ray F w (Camera.ray_for F w.camera x y 0 0) 10).color
  Color.rgba c.r c.g c.b c.a

theorem sample_pixel_one (F : FloatOps) (w : World) (x y : ℕ) (rng : RngState) :
    World.sample_pixel F w x y 1 rng = (pixel_color F w x y, rng) := by
  unfold World.sample_pixel
  rw [show List.range 1 = [0] from rfl]
  rw [List.foldl_cons, List.foldl_nil]
  unfold Camera.generate_ray
  dsimp only
  unfold pixel_color
  dsimp only
  congr 1
  simp only [V4.add4_x, V4.add4_y, V4.add4_z, V4.add4_w, V4.zero4_x, V4.zero4_y,
    V4.zero4_z, V4.zero4_w, Color.to_vec]
  norm_num

theorem render_column_one (F : FloatOps) (w : World) (x : ℕ) :
    ∀ (ys : List ℕ) (acc : List Color) (rng : RngState),
      ys.foldl
        (fun acc2 y =>
          let pr := World.sample_pixel F w x y 1 acc2.2
          (acc2.1 ++ [pr.1], pr.2))
        (acc, rng) = (acc ++ ys.map (pixel_color F w x), rng) := by
  intro ys
  induction ys with
  | nil => intro acc rng; simp
  | cons y ys ih =>
    intro acc rng
    rw [List.foldl_cons]
    dsimp only
    rw [sample_pixel_one]
    rw [ih]
    simp

theorem render_rows_one (F : FloatOps) (w : World) :
    ∀ (xs : List ℕ) (acc : List (List Color)) (rng : RngState),
      xs.foldl
        (fun acc x =>
          let col := (List.range w.camera.height).foldl
            (fun acc2 y =>
              let pr := World.sample_pixel F w x y 1 acc2.2
              (acc2.1 ++ [pr.1], pr.2))
            (([] : List Color), acc.2)
          (acc.1 ++ [col.1], col.2))
        (acc, rng) =
      (acc ++ xs.map fun x => (List.range w.camera.height).map (pixel_color F w x),
        rng) := by
  intro xs
  induction xs with
  | nil => intro acc rng; simp
  | cons x xs ih =>
    intro acc rng
    rw [List.foldl_cons]
    dsimp only
    rw [render_column_one F w x (List.range w.camera.height) [] rng]
    rw [ih]
    simp

/-- C9: at one sample per pixel no jitter generator is ever consulted —
the render threads its RNG state through unchanged and the resulting grid
is the same for any two generator states — and the produced grid is
exactly the in-order, single-threaded per-pixel map: pixels[x][y] holds
pixel (x, y)'s own traced colour (the code is single-threaded, so thread
count cannot affect the result).  Rendering twice with the same inputs is
equality of a pure function. -/
theorem c9_render_deterministic :
    ∀ (F : FloatOps) (w : World) (rng : RngState),
      World.render F w 1 rng =
        ((List.range w.camera.width).map fun x =>
          (List.range w.camera.height).map (pixel_color F w x), rng) := by
  intro F w rng
  unfold World.render
  exact render_rows_one F w (List.range w.camera.width) [] rng

/-- Folding step of the semantic minimum of a list of hit parameters. -/
def opt_min_q (a : Option ℚ) (t : ℚ) : Option ℚ :=
  match a with
  | none => some t
  | some m => some (min m t)

/-- The minimum hit parameter over an object list — the value linear scan
and BVH traversal must agree on. -/
def tmin (objects : List Object) (ray : Ray) : Option ℚ :=
  (objects.filterMap fun o => o.hit ray).foldl opt_min_q none

/-- Combination of two optional minima. -/
def combine_t : Option ℚ → Option ℚ → Option ℚ
  | none, b => b
  | some x, none => some x
  | some x, some y => some (min x y)

theorem min_by_t_map_snd_aux (hits : List (Object × ℚ)) :
    ∀ acc : Option (Object × ℚ),
      (hits.foldl
        (fun acc x =>
          match acc with
          | none => some x
          | some m => if x.2 < m.2 then some x else some m)
        acc).map Prod.snd =
      (hits.map Prod.snd).foldl opt_min_q (acc.map Prod.snd) := by
  induction hits with
  | nil => intro acc; rfl
  | cons x l ih =>
    intro acc
    rw [List.foldl_cons, List.map_cons, List.foldl_cons, ih]
    congr 1
    cases acc with
    | none => rfl
    | some m =>
      show (if x.2 < m.2 then some x else some m).map Prod.snd =
        some (min m.2 x.2)
      rcases lt_or_le x.2 m.2 with h | h
      · rw [if_pos h, min_eq_right (le_of_lt h)]
        rfl
      · rw [if_neg (not_lt.mpr h), min_eq_left h]
        rfl

theorem filterMap_hits_snd (objects : List Object) (ray : Ray) :
    ((objects.filterMap fun o => (o.hit ray).map fun t => (o, t)).map Prod.snd) =
      objects.filterMap fun o => o.hit ray := by
  induction objects with
  | nil => rfl
  | cons o l ih =>
    rw [List.filterMap_cons, List.filterMap_cons]
    cases h : o.hit ray with
    | none => simpa [h] using ih
    | some t => simpa [h] using ih

theorem closest_map_snd (objects : List Object) (ray : Ray) :
    (closest_intersection objects ray).map Prod.snd = tmin objects ray := by
  unfold closest_intersection min_by_t tmin
  rw [min_by_t_map_snd_aux, filterMap_hits_snd]
  rfl

theorem foldl_opt_min_shift :
    ∀ (v : List ℚ) (acc : Option ℚ),
      v.foldl opt_min_q acc = combine_t acc (v.foldl opt_min_q none) := by
  intro v
  induction v with
  | nil => intro acc; cases acc <;> rfl
  | cons t v ih =>
    intro acc
    rw [List.foldl_cons, List.foldl_cons, ih (opt_min_q acc t), ih (opt_min_q none t)]
    cases acc with
    | none => rfl
    | some m =>
      cases hv : v.foldl opt_min_q none with
      | none => rfl
      | some y =>
        show some (min (min m t) y) = some (min m (min t y))
        rw [min_assoc]

theorem tmin_append (A B : List Object) (ray : Ray) :
    tmin (A ++ B) ray = combine_t (tmin A ray) (tmin B ray) := by
  unfold tmin
  rw [List.filterMap_append, List.foldl_append]
  exact foldl_opt_min_shift _ _

theorem foldl_opt_min_perm {l1 l2 : List ℚ} (h : l1.Perm l2) :
    l1.foldl opt_min_q none = l2.foldl opt_min_q none := by
  induction h with
  | nil => rfl
  | cons x l ih =>
    rw [List.foldl_cons, List.foldl_cons, foldl_opt_min_shift _ (opt_min_q none x),
      foldl_opt_min_shift _ (opt_min_q none x), ih]
  | swap x y l =>
    rw [List.foldl_cons, List.foldl_cons, List.foldl_cons, List.foldl_cons]
    show List.foldl opt_min_q (some (min y x)) l = List.foldl opt_min_q (some (min x y)) l
    rw [min_comm]
  | trans h1 h2 ih1 ih2 => rw [ih1, ih2]

theorem tmin_perm {A B : List Object} (h : A.Perm B) (ray : Ray) :
    tmin A ray = tmin B ray :=
  foldl_opt_min_perm (h.filterMap fun o => o.hit ray)

theorem min_opt2_map_snd (a b : Option (Object × ℚ)) :
    (min_opt2 a b).map Prod.snd = combine_t (a.map Prod.snd) (b.map Prod.snd) := by
  cases a with
  | none => cases b <;> rfl
  | some x =>
    cases b with
    | none => rfl
    | some y =>
      show (if y.2 < x.2 then some y else some x).map Prod.snd =
        some (min x.2 y.2)
      rcases lt_or_le y.2 x.2 with h | h
      · rw [if_pos h, min_eq_right (le_of_lt h)]
        rfl
      · rw [if_neg (not_lt.mpr h), min_eq_left h]
        rfl

theorem V3.le_refl (a : V3) : V3.le a a := ⟨le_rfl, le_rfl, le_rfl⟩

theorem V3.le_trans {a b c : V3} (h1 : V3.le a b) (h2 : V3.le b c) : V3.le a c :=
  ⟨h1.1.trans h2.1, h1.2.1.trans h2.2.1, h1.2.2.trans h2.2.2⟩

theorem V3.cmin_le_left (a b : V3) : V3.le (V3.cmin a b) a :=
  ⟨min_le_left _ _, min_le_left _ _, min_le_left _ _⟩

theorem V3.cmin_le_right (a b : V3) : V3.le (V3.cmin a b) b :=
  ⟨min_le_right _ _, min_le_right _ _, min_le_right _ _⟩

theorem V3.left_le_cmax (a b : V3) : V3.le a (V3.cmax a b) :=
  ⟨le_max_left _ _, le_max_left _ _, le_max_left _ _⟩

theorem V3.right_le_cmax (a b : V3) : V3.le b (V3.cmax a b) :=
  ⟨le_max_right _ _, le_max_right _ _, le_max_right _ _⟩

theorem foldl_cmin_le (l : List V3) :
    ∀ init : V3, V3.le (l.foldl V3.cmin init) init ∧
      ∀ p ∈ l, V3.le (l.foldl V3.cmin init) p := by
  induction l with
  | nil => intro init; exact ⟨V3.le_refl init, fun p hp => absurd hp (List.not_mem_nil p)⟩
  | cons q l ih =>
    intro init
    rw [List.foldl_cons]
    obtain ⟨h1, h2⟩ := ih (V3.cmin init q)
    refine ⟨V3.le_trans h1 (V3.cmin_le_left init q), ?_⟩
    intro p hp
    rcases List.mem_cons.mp hp with rfl | hp
    · exact V3.le_trans h1 (V3.cmin_le_right init p)
    · exact h2 p hp

theorem le_foldl_cmax (l : List V3) :
    ∀ init : V3, V3.le init (l.foldl V3.cmax init) ∧
      ∀ p ∈ l, V3.le p (l.foldl V3.cmax init) := by
  induction l with
  | nil => intro init; exact ⟨V3.le_refl init, fun p hp => absurd hp (List.not_mem_nil p)⟩
  | cons q l ih =>
    intro init
    rw [List.foldl_cons]
    obtain ⟨h1, h2⟩ := ih (V3.cmax init q)
    refine ⟨V3.le_trans (V3.left_le_cmax init q) h1, ?_⟩
    intro p hp
    rcases List.mem_cons.mp hp with rfl | hp
    · exact V3.le_trans (V3.right_le_cmax init p) h1
    · exact h2 p hp

theorem component_wise_range_bounds (points : List V3) (p : V3) (hp : p ∈ points) :
    V3.le (component_wise_range points).1 p ∧
      V3.le p (component_wise_range points).2 := by
  cases points with
  | nil => exact absurd hp (List.not_mem_nil p)
  | cons q qs =>
    unfold component_wise_range
    rcases List.mem_cons.mp hp with rfl | hp
    · exact ⟨(foldl_cmin_le qs p).1, (le_foldl_cmax qs p).1⟩
    · exact ⟨(foldl_cmin_le qs q).2 p hp, (le_foldl_cmax qs q).2 p hp⟩

theorem component_wise_range_wf (points : List V3) (h : points ≠ []) :
    V3.le (component_wise_range points).1 (component_wise_range points).2 := by
  cases points with
  | nil => exact absurd rfl h
  | cons q qs =>
    unfold component_wise_range
    exact V3.le_trans (foldl_cmin_le qs q).1 (le_foldl_cmax qs q).1

theorem union_contains (aabbs : List AABB) (bb : AABB) (hbb : bb ∈ aabbs) :
    AABB.subset bb (AABB.union aabbs) := by
  unfold AABB.union
  rw [if_neg (by simp [List.isEmpty_iff]; rintro rfl; exact absurd hbb (List.not_mem_nil bb))]
  have hlo : bb.lo ∈ (aabbs.map fun b => [b.lo, b.hi]).flatten := by
    rw [List.mem_flatten]
    exact ⟨[bb.lo, bb.hi], List.mem_map_of_mem _ hbb, by simp⟩
  have hhi : bb.hi ∈ (aabbs.map fun b => [b.lo, b.hi]).flatten := by
    rw [List.mem_flatten]
    exact ⟨[bb.lo, bb.hi], List.mem_map_of_mem _ hbb, by simp⟩
  exact ⟨(component_wise_range_bounds _ _ hlo).1, (component_wise_range_bounds _ _ hhi).2⟩

theorem union_wf (aabbs : List AABB) :
    V3.le (AABB.union aabbs).lo (AABB.union aabbs).hi := by
  unfold AABB.union
  split
  · exact V3.le_refl 0
  · apply component_wise_range_wf
    rename_i hne
    intro hcon
    cases aabbs with
    | nil => exact hne rfl
    | cons a rest =>
      have hmem : a.lo ∈ (List.map (fun bb => [bb.lo, bb.hi]) (a :: rest)).flatten := by
        simp
      rw [hcon] at hmem
      exact absurd hmem (List.not_mem_nil _)

/-- The structural invariant of a built tree: every box is well formed and
every node's box encloses its children's boxes, down to leaf objects. -/
def BvhTree.invar : BvhTree → Prop
  | BvhTree.node aabb left right _ =>
    V3.le aabb.lo aabb.hi ∧ AABB.subset left.get_aabb aabb ∧
      AABB.subset right.get_aabb aabb ∧ left.invar ∧ right.invar
  | BvhTree.leaf aabb objects _ =>
    V3.le aabb.lo aabb.hi ∧
      ∀ o ∈ objects, V3.le o.bb_lo o.bb_hi ∧ AABB.subset o.bounding_box aabb

theorem BvhTree.build_invar (st : SplitType) :
    ∀ (fuel : ℕ) (objects : List Object) (t : BvhTree),
      BvhTree.build_with st fuel objects = some t →
      (∀ o ∈ objects, V3.le o.bb_lo o.bb_hi) → t.invar := by
  intro fuel
  induction fuel with
  | zero => intro objects t h; exact Option.noConfusion h
  | succ n ih =>
    intro objects t h hwf
    rw [BvhTree.build_with] at h
    dsimp only at h
    split at h
    · obtain rfl := Option.some_injective _ h
      refine ⟨union_wf _, ?_⟩
      intro o ho
      exact ⟨hwf o ho,
        union_contains _ _ (List.mem_map_of_mem Object.bounding_box ho)⟩
    · split at h
      · rename_i left right hl hr
        obtain rfl := Option.some_injective _ h
        have hmem1 : ∀ o ∈ (bvh_split objects st).1, o ∈ objects := by
          intro o ho
          exact (bvh_split_perm objects st).mem_iff.mp
            (List.mem_append.mpr (Or.inl ho))
        have hmem2 : ∀ o ∈ (bvh_split objects st).2, o ∈ objects := by
          intro o ho
          exact (bvh_split_perm objects st).mem_iff.mp
            (List.mem_append.mpr (Or.inr ho))
        exact ⟨union_wf _,
          union_contains _ _ (by simp),
          union_contains _ _ (by simp),
          ih _ _ hl fun o ho => hwf o (hmem1 o ho),
          ih _ _ hr fun o ho => hwf o (hmem2 o ho)⟩
      · exact Option.noConfusion h

theorem BvhTree.invar_leaf_obj (t : BvhTree) (hinv : t.invar) :
    ∀ o ∈ t.leaf_objects,
      V3.le o.bb_lo o.bb_hi ∧ AABB.subset o.bounding_box t.get_aabb := by
  induction t with
  | leaf aabb objects size =>
    intro o ho
    exact hinv.2 o ho
  | node aabb left right size ihl ihr =>
    intro o ho
    obtain ⟨hwf, hsl, hsr, hil, hir⟩ := hinv
    rcases List.mem_append.mp ho with ho | ho
    · obtain ⟨h1, h2⟩ := ihl hil o ho
      exact ⟨h1, AABB.subset_trans h2 hsl⟩
    · obtain ⟨h1, h2⟩ := ihr hir o ho
      exact ⟨h1, AABB.subset_trans h2 hsr⟩

theorem BvhTree.invar_wf (t : BvhTree) (hinv : t.invar) :
    V3.le t.get_aabb.lo t.get_aabb.hi := by
  cases t with
  | leaf aabb objects size => exact hinv.1
  | node aabb left right size => exact hinv.1

/-- A primitive is consistent with its bounding box when a ray whose line
misses the box also misses the primitive — the containment property the
BVH's pruning relies on. -/
def Object.hit_in_box (o : Object) : Prop :=
  ∀ r : Ray, o.bounding_box.intersect r = none → o.hit r = none

theorem tmin_none_of_all_miss (objects : List Object) (ray : Ray)
    (h : ∀ o ∈ objects, o.hit ray = none) : tmin objects ray = none := by
  unfold tmin
  rw [List.filterMap_eq_nil_iff.mpr h]
  rfl

/-- BVH traversal computes the same minimum hit parameter as the multiset
of its leaf objects, under the structural invariant and box-consistent
hits. -/
theorem tree_closest_map_snd (ray : Ray) :
    ∀ t : BvhTree, t.invar →
      (∀ o ∈ t.leaf_objects, o.hit_in_box) →
      (t.get_closest_intersection ray).map Prod.snd = tmin t.leaf_objects ray := by
  intro t
  induction t with
  | leaf aabb objects size =>
    intro hinv hbox
    show (match aabb.intersect ray with
      | some _ => min_by_t (objects.filterMap fun ob : Object =>
          (ob.hit ray).map fun tv => (ob, tv))
      | none => none).map Prod.snd = tmin objects ray
    cases hI : aabb.intersect ray with
    | some tv =>
      dsimp only
      unfold min_by_t tmin
      rw [min_by_t_map_snd_aux, filterMap_hits_snd]
      rfl
    | none =>
      dsimp only
      symm
      apply tmin_none_of_all_miss
      intro o ho
      apply hbox o ho
      exact AABB.intersect_none_mono ray (hinv.2 o ho).2 (hinv.2 o ho).1 hinv.1 hI
  | node aabb left right size ihl ihr =>
    intro hinv hbox
    obtain ⟨hwf, hsl, hsr, hil, hir⟩ := hinv
    show (match aabb.intersect ray with
      | some _ => min_opt2 (left.get_closest_intersection ray)
          (right.get_closest_intersection ray)
      | none => none).map Prod.snd =
      tmin (left.leaf_objects ++ right.leaf_objects) ray
    cases hI : aabb.intersect ray with
    | some tv =>
      dsimp only
      rw [min_opt2_map_snd, tmin_append,
        ihl hil fun o ho => hbox o (List.mem_append.mpr (Or.inl ho)),
        ihr hir fun o ho => hbox o (List.mem_append.mpr (Or.inr ho))]
    | none =>
      dsimp only
      symm
      apply tmin_none_of_all_miss
      intro o ho
      rcases List.mem_append.mp ho with hmem | hmem
      · obtain ⟨h1, h2⟩ := BvhTree.invar_leaf_obj left hil o hmem
        exact hbox o ho _
          (AABB.intersect_none_mono ray (AABB.subset_trans h2 hsl) h1 hwf hI)
      · obtain ⟨h1, h2⟩ := BvhTree.invar_leaf_obj right hir o hmem
        exact hbox o ho _
          (AABB.intersect_none_mono ray (AABB.subset_trans h2 hsr) h1 hwf hI)

theorem min_by_t_mem (hits : List (Object × ℚ)) (p : Object × ℚ) :
    ∀ acc : Option (Object × ℚ),
      hits.foldl
        (fun acc x =>
          match acc with
          | none => some x
          | some m => if x.2 < m.2 then some x else some m)
        acc = some p →
      acc = some p ∨ p ∈ hits := by
  induction hits with
  | nil => intro acc h; exact Or.inl h
  | cons x l ih =>
    intro acc h
    rw [List.foldl_cons] at h
    rcases ih _ h with hacc | hmem
    · cases acc with
      | none =>
        dsimp only at hacc
        obtain rfl := Option.some_injective _ hacc
        exact Or.inr (List.mem_cons_self x l)
      | some m =>
        dsimp only at hacc
        by_cases hlt : x.2 < m.2
        · rw [if_pos hlt] at hacc
          obtain rfl := Option.some_injective _ hacc
          exact Or.inr (List.mem_cons_self x l)
        · rw [if_neg hlt] at hacc
          exact Or.inl hacc
    · exact Or.inr (List.mem_cons_of_mem x hmem)

theorem closest_intersection_mem (objects : List Object) (ray : Ray)
    (o : Object) (tv : ℚ)
    (h : closest_intersection objects ray = some (o, tv)) :
    o ∈ objects ∧ o.hit ray = some tv := by
  unfold closest_intersection min_by_t at h
  rcases min_by_t_mem _ _ none h with hacc | hmem
  · exact Option.noConfusion hacc
  · rw [List.mem_filterMap] at hmem
    obtain ⟨a, ha, hmap⟩ := hmem
    cases hh : a.hit ray with
    | none => rw [hh] at hmap; exact Option.noConfusion hmap
    | some s =>
      rw [hh] at hmap
      obtain h2 := Option.some_injective _ hmap
      obtain ⟨rfl, rfl⟩ := Prod.mk.injEq .. ▸ And.intro (congrArg Prod.fst h2)
        (congrArg Prod.snd h2)
      exact ⟨ha, hh⟩

theorem tree_closest_mem (ray : Ray) :
    ∀ (t : BvhTree) (o : Object) (tv : ℚ),
      t.get_closest_intersection ray = some (o, tv) →
      o ∈ t.leaf_objects ∧ o.hit ray = some tv := by
  intro t
  induction t with
  | leaf aabb objects size =>
    intro o tv h
    revert h
    show (match aabb.intersect ray with
      | some _ => min_by_t (objects.filterMap fun o => (o.hit ray).map fun s => (o, s))
      | none => none) = some (o, tv) → _
    cases hI : aabb.intersect ray with
    | some s =>
      dsimp only
      intro h
      unfold min_by_t at h
      rcases min_by_t_mem _ _ none h with hacc | hmem
      · exact Option.noConfusion hacc
      · rw [List.mem_filterMap] at hmem
        obtain ⟨a, ha, hmap⟩ := hmem
        cases hh : a.hit ray with
        | none => rw [hh] at hmap; exact Option.noConfusion hmap
        | some s2 =>
          rw [hh] at hmap
          obtain h2 := Option.some_injective _ hmap
          have hfst := congrArg Prod.fst h2
          have hsnd := congrArg Prod.snd h2
          dsimp at hfst hsnd
          subst hfst
          subst hsnd
          exact ⟨ha, hh⟩
    | none =>
      dsimp only
      intro h
      exact Option.noConfusion h
  | node aabb left right size ihl ihr =>
    intro o tv h
    revert h
    show (match aabb.intersect ray with
      | some _ => min_opt2 (left.get_closest_intersection ray)
          (right.get_closest_intersection ray)
      | none => none) = some (o, tv) → _
    cases hI : aabb.intersect ray with
    | some s =>
      dsimp only
      intro h
      unfold min_opt2 at h
      rcases hL : left.get_closest_intersection ray with _ | x <;>
        rcases hR : right.get_closest_intersection ray with _ | y <;>
          rw [hL, hR] at h
      · exact Option.noConfusion h
      · obtain rfl := Option.some_injective _ h
        obtain ⟨h1, h2⟩ := ihr o tv hR
        exact ⟨List.mem_append.mpr (Or.inr h1), h2⟩
      · obtain rfl := Option.some_injective _ h
        obtain ⟨h1, h2⟩ := ihl o tv hL
        exact ⟨List.mem_append.mpr (Or.inl h1), h2⟩
      · dsimp only at h
        split at h
        · obtain rfl := Option.some_injective _ h
          obtain ⟨h1, h2⟩ := ihr o tv hR
          exact ⟨List.mem_append.mpr (Or.inr h1), h2⟩
        · obtain rfl := Option.some_injective _ h
          obtain ⟨h1, h2⟩ := ihl o tv hL
          exact ⟨List.mem_append.mpr (Or.inl h1), h2⟩
    | none =>
      dsimp only
      intro h
      exact Option.noConfusion h

/-- An opaque primitive whose intersection query is exactly its bounding
box's slab test — the minimal box-consistent primitive, used for the
three-disjoint-primitive scenario. -/
def box_obj (lo hi : V3) : Object :=
  ⟨lo, hi, fun r => AABB.intersect ⟨lo, hi⟩ r, fun _ => 0,
    fun _ => Color.rgb (1/2) (1/2) (1/2), MaterialType.plain⟩

/-- Three primitives with pairwise disjoint bounding boxes. -/
def demo_objs : List Object :=
  [box_obj ⟨0, 0, 0⟩ ⟨1, 1, 1⟩, box_obj ⟨3, 0, 0⟩ ⟨4, 1, 1⟩, box_obj ⟨6, 0, 0⟩ ⟨7, 1, 1⟩]

/-- A ray through exactly the middle primitive. -/
def hit_ray : Ray := ⟨⟨7/2, 1/2, -1⟩, ⟨0, 0, 1⟩⟩

/-- A ray through none of the three primitives. -/
def miss_ray : Ray := ⟨⟨2, 1/2, -1⟩, ⟨0, 0, 1⟩⟩

/-- C2 (amended): the nearest-hit parameter t is independent of the index
structure and the split policy — a BVH built with the basic midpoint
split, one built with the SAH split, and the linear scan agree on it for
every object list whose objects have well-formed, hit-consistent bounding
boxes; the returned primitive also agrees whenever the minimizing
primitive is unique — at most one listed object attains the returned
nearest parameter, farther ties allowed; and for three primitives with
disjoint boxes, a ray through exactly one of them returns that primitive
under both split policies and under linear scan, while a ray through none
returns no hit. -/
theorem c2_nearest_hit_equivalence :
    (∀ (st : SplitType) (fuel : ℕ) (objects : List Object) (t : BvhTree),
      BvhTree.build_with st fuel objects = some t →
      (∀ o ∈ objects, V3.le o.bb_lo o.bb_hi) →
      (∀ o ∈ objects, o.hit_in_box) →
      ∀ r : Ray,
        (t.get_closest_intersection r).map Prod.snd =
          (closest_intersection objects r).map Prod.snd ∧
        (∀ o tv o2 tv2, t.get_closest_intersection r = some (o, tv) →
          closest_intersection objects r = some (o2, tv2) →
          (∀ p1 p2, p1 ∈ objects → p2 ∈ objects → p1.hit r = some tv2 →
            p2.hit r = some tv2 → p1 = p2) →
          (o, tv) = (o2, tv2))) ∧
    ((BvhTree.build 3 demo_objs).map fun tr =>
        tr.get_closest_intersection hit_ray) =
      some (some (box_obj ⟨3, 0, 0⟩ ⟨4, 1, 1⟩, 1)) ∧
    ((BvhTree.build_with SplitType.basic 3 demo_objs).map fun tr =>
        tr.get_closest_intersection hit_ray) =
      some (some (box_obj ⟨3, 0, 0⟩ ⟨4, 1, 1⟩, 1)) ∧
    closest_intersection demo_objs hit_ray = some (box_obj ⟨3, 0, 0⟩ ⟨4, 1, 1⟩, 1) ∧
    ((BvhTree.build 3 demo_objs).map fun tr =>
        tr.get_closest_intersection miss_ray) = some none ∧
    closest_intersection demo_objs miss_ray = none := by
  refine ⟨?_, ?_, ?_, ?_, ?_, ?_⟩
  · intro st fuel objects t hbuild hwf hbox r
    have hperm := (BvhTree.build_preserves st fuel objects t hbuild).1
    have hinv := BvhTree.build_invar st fuel objects t hbuild hwf
    have hsnd : (t.get_closest_intersection r).map Prod.snd =
        (closest_intersection objects r).map Prod.snd := by
      rw [closest_map_snd, tree_closest_map_snd r t hinv
        (fun o ho => hbox o (hperm.mem_iff.mp ho))]
      exact tmin_perm hperm r
    refine ⟨hsnd, ?_⟩
    intro o tv o2 tv2 htree hlin huniq
    obtain ⟨hmem, hhit⟩ := tree_closest_mem r t o tv htree
    obtain ⟨hmem2, hhit2⟩ := closest_intersection_mem objects r o2 tv2 hlin
    have htv : tv = tv2 := by
      have := hsnd
      rw [htree, hlin] at this
      exact Option.some_injective _ this
    subst htv
    have ho : o = o2 :=
      huniq o o2 (hperm.mem_iff.mp hmem) hmem2 hhit hhit2
    rw [ho]
  · with_unfolding_all rfl
  · with_unfolding_all rfl
  · with_unfolding_all rfl
  · with_unfolding_all rfl
  · with_unfolding_all rfl

/-- A far primitive hit by near_ray at t = 3. -/
def far_box_one : Object := box_obj ⟨0, 0, 2⟩ ⟨1, 1, 3⟩

/-- A second, different far primitive also hit by near_ray at t = 3. -/
def far_box_two : Object := box_obj ⟨0, 0, 2⟩ ⟨2, 1, 3⟩

/-- A unique nearest primitive plus two distinct farther primitives tied
at t = 3: the minimizing primitive is unique, but hit parameters are not
globally injective. -/
def tie3_objs : List Object :=
  [far_box_one, box_obj ⟨0, 0, 0⟩ ⟨1, 1, 1⟩, far_box_two]

/-- A ray hitting the near box at t = 1 and both far boxes at t = 3. -/
def near_ray : Ray := ⟨⟨1/2, 1/2, -1⟩, ⟨0, 0, 1⟩⟩

/-- The tree built over the tied-farther-hits scene. -/
def tie3_tree : BvhTree :=
  (BvhTree.build 3 tie3_objs).getD (BvhTree.leaf AABB.empty [] 0)

/-- Witness for c2_nearest_hit_equivalence: a concrete scene whose nearest
hit is unique while two distinct farther objects tie at t = 3, so hit
parameters are not injective; both the t-agreement and the
unique-minimizer object-agreement conjuncts are applied with every
hypothesis discharged. -/
theorem c2_witness :
    BvhTree.build 3 tie3_objs = some tie3_tree ∧
    far_box_one.hit near_ray = some 3 ∧
    far_box_two.hit near_ray = some 3 ∧
    far_box_one.bb_hi ≠ far_box_two.bb_hi ∧
    (tie3_tree.get_closest_intersection near_ray).map Prod.snd =
      (closest_intersection tie3_objs near_ray).map Prod.snd ∧
    tie3_tree.get_closest_intersection near_ray =
      some (box_obj ⟨0, 0, 0⟩ ⟨1, 1, 1⟩, 1) ∧
    closest_intersection tie3_objs near_ray =
      some (box_obj ⟨0, 0, 0⟩ ⟨1, 1, 1⟩, 1) ∧
    (box_obj ⟨0, 0, 0⟩ ⟨1, 1, 1⟩, (1 : ℚ)) =
      (box_obj ⟨0, 0, 0⟩ ⟨1, 1, 1⟩, 1) := by
  have hb : BvhTree.build 3 tie3_objs = some tie3_tree := by
    with_unfolding_all rfl
  have e1 : far_box_one.hit near_ray = some 3 := by
    with_unfolding_all rfl
  have e2 : far_box_two.hit near_ray = some 3 := by
    with_unfolding_all rfl
  have htree : tie3_tree.get_closest_intersection near_ray =
      some (box_obj ⟨0, 0, 0⟩ ⟨1, 1, 1⟩, 1) := by
    with_unfolding_all rfl
  have hlin : closest_intersection tie3_objs near_ray =
      some (box_obj ⟨0, 0, 0⟩ ⟨1, 1, 1⟩, 1) := by
    with_unfolding_all rfl
  have hwf : ∀ o ∈ tie3_objs, V3.le o.bb_lo o.bb_hi := by
    intro o ho
    simp only [tie3_objs, List.mem_cons, List.not_mem_nil, or_false] at ho
    rcases ho with rfl | rfl | rfl <;> with_unfolding_all decide
  have hbox : ∀ o ∈ tie3_objs, o.hit_in_box := by
    intro o ho
    simp only [tie3_objs, List.mem_cons, List.not_mem_nil, or_false] at ho
    rcases ho with rfl | rfl | rfl <;> exact fun r h => h
  have huniq : ∀ p1 p2, p1 ∈ tie3_objs → p2 ∈ tie3_objs →
      p1.hit near_ray = some 1 → p2.hit near_ray = some 1 → p1 = p2 := by
    intro p1 p2 h1 h2 hh1 hh2
    simp only [tie3_objs, List.mem_cons, List.not_mem_nil, or_false] at h1 h2
    rcases h1 with rfl | rfl | rfl <;> rcases h2 with rfl | rfl | rfl <;>
      first
        | rfl
        | exact absurd (e1.symm.trans hh1) (by with_unfolding_all decide)
        | exact absurd (e2.symm.trans hh1) (by with_unfolding_all decide)
        | exact absurd (e1.symm.trans hh2) (by with_unfolding_all decide)
        | exact absurd (e2.symm.trans hh2) (by with_unfolding_all decide)
  refine ⟨hb, e1, e2, by with_unfolding_all decide, ?_, htree, hlin, ?_⟩
  · exact (c2_nearest_hit_equivalence.1 SplitType.sah 3 tie3_objs tie3_tree
      hb hwf hbox near_ray).1
  · exact (c2_nearest_hit_equivalence.1 SplitType.sah 3 tie3_objs tie3_tree
      hb hwf hbox near_ray).2 (box_obj ⟨0, 0, 0⟩ ⟨1, 1, 1⟩) 1
      (box_obj ⟨0, 0, 0⟩ ⟨1, 1, 1⟩) 1 htree hlin huniq

/-- Object::get_intersection for a triangle with the identity transform
(src/object.rs): the same one-sided plane test with three edge checks. -/
def triangle_hit (F : FloatOps) (a b c : V3) (ray : Ray) : Option ℚ :=
  let position := ray.get_point_on_ray 0
  let direction := ray.get_direction
  let normal := normalize F ((b - a).cross (c - a))
  if direction.dot normal < 0 then
    let t := (a - position).dot normal / direction.dot normal
    if 0 < t then
      let p := ray.get_point_on_ray t
      if 0 ≤ ((b - a).cross (p - a)).dot normal ∧
          0 ≤ ((c - b).cross (p - b)).dot normal ∧
          0 ≤ ((a - c).cross (p - c)).dot normal then
        some (ray.get_t (ray.get_point_on_ray t))
      else none
    else none
  else none

/-- Object::new_triangle with the identity transform. -/
def mk_triangle (F : FloatOps) (a b c : V3) (m : MaterialType) : Object :=
  ⟨(component_wise_range [a, b, c]).1, (component_wise_range [a, b, c]).2,
    triangle_hit F a b c, fun _ => normalize F (normalize F ((b - a).cross (c - a))),
    fun _ => Color.rgb (1/2) (1/2) (1/2), m⟩

/-- Two coplanar overlapping triangles in the plane z = 1, both facing the
origin side. -/
def tri_one : Object :=
  mk_triangle F_demo ⟨0, 0, 1⟩ ⟨0, 1, 1⟩ ⟨1, 0, 1⟩ MaterialType.plain

def tri_two : Object :=
  mk_triangle F_demo ⟨1/4, 0, 1⟩ ⟨1/4, 1, 1⟩ ⟨5/4, 0, 1⟩ MaterialType.plain

/-- The input order that the midpoint split reorders. -/
def tie_objs : List Object := [tri_two, tri_one]

/-- A ray through the overlap of the two triangles: both are hit at exactly
t = 1. -/
def tie_ray : Ray := ⟨⟨3/10, 1/5, 0⟩, ⟨0, 0, 1⟩⟩

/-- C2 counterexample: on two coplanar triangles hit at exactly the same
parameter, the linear scan returns the first of the input order (tri_two)
while the BVH — whose split reorders the objects — returns the other
(tri_one): the nearest-hit answer is not wholly independent of the index
structure when the minimum is tied. -/
theorem c2_counterexample :
    ((BvhTree.build 2 tie_objs).map fun tr =>
        tr.get_closest_intersection tie_ray) = some (some (tri_one, 1)) ∧
      closest_intersection tie_objs tie_ray = some (tri_two, 1) ∧
      tri_one ≠ tri_two := by
  refine ⟨?_, ?_, ?_⟩
  · with_unfolding_all rfl
  · with_unfolding_all rfl
  · intro h
    have h2 := congrArg Object.bb_lo h
    exact absurd h2 (by with_unfolding_all decide)

/- ————— C8: the split policies of bvh_split, stated from the spec's words
and compared with the source translation above. ————— -/

/-- Spec-side bucket assignment: the bucket of a centroid by its relative
position inside the global centroid range along the split axis. -/
def sah_bucket (gbb : AABB) (dim : ℕ) (c : V3) : ℕ :=
  bucket_index (c.nth dim) (gbb.lo.nth dim) (gbb.hi.nth dim - gbb.lo.nth dim)

/-- The enumerated centroids assigned to bucket j. -/
def sah_members (centroids : List V3) (gbb : AABB) (dim j : ℕ) :
    List (ℕ × V3) :=
  centroids.enum.filter fun ic => decide (sah_bucket gbb dim ic.2 = j)

/-- The box of bucket j: the union of its members' bounding boxes,
accumulated from the same Default (zero-box) seed the source loop uses. -/
def sah_box (objects : List Object) (centroids : List V3) (gbb : AABB)
    (dim j : ℕ) : AABB :=
  (sah_members centroids gbb dim j).foldl
    (fun acc ic =>
      AABB.union [acc, (objects.getD ic.1 default_object).bounding_box])
    AABB.empty

/-- The bucket record the filling loop should end with: member count,
member box union, member indexes in input order. -/
def sah_bucket_data (objects : List Object) (centroids : List V3)
    (gbb : AABB) (dim j : ℕ) : SplitBucket :=
  ⟨(sah_members centroids gbb dim j).length,
   sah_box objects centroids gbb dim j,
   (sah_members centroids gbb dim j).map Prod.fst⟩

/-- Spec-side cost of splitting after plane i:
0.125 + (countLeft·areaLeft + countRight·areaRight) / areaParent, with the
counts read directly as numbers of members in buckets ≤ i (resp. > i) and
the areas as surface areas of the unions of the left (resp. right) bucket
boxes. -/
def sah_cost (objects : List Object) (centroids : List V3) (gbb : AABB)
    (dim i : ℕ) : ℚ :=
  let count_left : ℚ :=
    ((centroids.enum.countP fun ic => decide (sah_bucket gbb dim ic.2 ≤ i)) : ℕ)
  let area_left : ℚ :=
    (AABB.union (((List.range 12).filter fun j => decide (j ≤ i)).map
      (sah_box objects centroids gbb dim))).surface_area
  let count_right : ℚ :=
    ((centroids.enum.countP fun ic => decide (i < sah_bucket gbb dim ic.2)) : ℕ)
  let area_right : ℚ :=
    (AABB.union (((List.range 12).filter fun j => decide (i < j)).map
      (sah_box objects centroids gbb dim))).surface_area
  1 / 8 + (count_left * area_left + count_right * area_right) /
    gbb.surface_area

/-- Spec-side SAH split: members in buckets ≤ the minimum-cost plane index
go left in input order, all others go right in input order. -/
def sah_spec_split (objects : List Object) (centroids : List V3)
    (gbb : AABB) (dim : ℕ) : List Object × List Object :=
  let chosen := min_cost_index
    ((List.range 11).map (sah_cost objects centroids gbb dim))
  ((objects.enum.filter fun io =>
      decide (sah_bucket gbb dim (centroids.getD io.1 0) ≤ chosen)).map
      Prod.snd,
   (objects.enum.filter fun io =>
      !decide (sah_bucket gbb dim (centroids.getD io.1 0) ≤ chosen)).map
      Prod.snd)

/-- Spec-side basic split: members whose centroid lies strictly below the
midpoint of the largest-range axis go left, the rest right, in input
order. -/
def midpoint_split (objects : List Object) : List Object × List Object :=
  let cr := component_wise_range (objects.map Object.centroid)
  let dim := max_dim (cr.2 - cr.1)
  let mid := (cr.2.nth dim + cr.1.nth dim) / 2
  (objects.filter fun o => decide (o.centroid.nth dim < mid),
   objects.filter fun o => !decide (o.centroid.nth dim < mid))

theorem length_update_nth (bs : List SplitBucket) :
    ∀ (k : ℕ) (f : SplitBucket → SplitBucket),
    (update_nth bs k f).length = bs.length := by
  induction bs with
  | nil => intro k f; rfl
  | cons b bs ih =>
    intro k f
    cases k with
    | zero => rfl
    | succ n => simp [update_nth, ih]

theorem getD_update_nth (bs : List SplitBucket) :
    ∀ (k : ℕ) (f : SplitBucket → SplitBucket) (j : ℕ) (d : SplitBucket),
    (update_nth bs k f).getD j d =
      if j = k ∧ k < bs.length then f (bs.getD j d) else bs.getD j d := by
  induction bs with
  | nil => intro k f j d; simp [update_nth]
  | cons b bs ih =>
    intro k f j d
    cases k with
    | zero =>
      cases j with
      | zero => simp [update_nth]
      | succ j => simp [update_nth]
    | succ n =>
      cases j with
      | zero => simp [update_nth]
      | succ j =>
        simp only [update_nth, List.getD_cons_succ, ih n f j d]
        by_cases h : j = n ∧ n < bs.length
        · rw [if_pos h, if_pos (by simp only [List.length_cons]; omega)]
        · rw [if_neg h, if_neg (by simp only [List.length_cons]; omega)]

/-- The running-minimum fold of min_cost_index, characterized: either no
element beats the accumulator, or the result is the first element achieving
the minimum. -/
theorem min_fold_from (cs : List ℚ) : ∀ (k : ℕ) (acc : ℕ × ℚ),
    ((cs.enumFrom k).foldl (fun a ic => if ic.2 < a.2 then ic else a) acc =
        acc ∧
      ∀ j < cs.length, acc.2 ≤ cs.getD j 0) ∨
    (∃ i, i < cs.length ∧
      (cs.enumFrom k).foldl (fun a ic => if ic.2 < a.2 then ic else a) acc =
        (k + i, cs.getD i 0) ∧
      cs.getD i 0 < acc.2 ∧
      (∀ j < cs.length, cs.getD i 0 ≤ cs.getD j 0) ∧
      (∀ j < i, cs.getD i 0 < cs.getD j 0)) := by
  induction cs with
  | nil =>
    intro k acc
    left
    exact ⟨rfl, by intro j hj; simp at hj⟩
  | cons c cs ih =>
    intro k acc
    rw [List.enumFrom_cons, List.foldl_cons]
    dsimp only
    by_cases hc : c < acc.2
    · rw [if_pos hc]
      rcases ih (k + 1) (k, c) with ⟨heq, hall⟩ | ⟨i, hi, heq, hlt, hmin, hfirst⟩
      · right
        refine ⟨0, by simp, ?_, by simpa using hc, ?_, ?_⟩
        · rw [heq]; simp
        · intro j hj
          cases j with
          | zero => simp
          | succ j =>
            simp only [List.getD_cons_succ, List.getD_cons_zero]
            exact hall j (by simpa using hj)
        · intro j hj; exact absurd hj (Nat.not_lt_zero j)
      · right
        refine ⟨i + 1, by simpa using hi, ?_, ?_, ?_, ?_⟩
        · rw [heq]
          simp only [List.getD_cons_succ, Prod.mk.injEq]
          exact ⟨by omega, trivial⟩
        · simp only [List.getD_cons_succ]
          exact hlt.trans hc
        · intro j hj
          cases j with
          | zero =>
            simp only [List.getD_cons_succ, List.getD_cons_zero]
            exact le_of_lt hlt
          | succ j =>
            simp only [List.getD_cons_succ]
            exact hmin j (by simpa using hj)
        · intro j hj
          cases j with
          | zero =>
            simp only [List.getD_cons_succ, List.getD_cons_zero]
            exact hlt
          | succ j =>
            simp only [List.getD_cons_succ]
            exact hfirst j (by omega)
    · rw [if_neg hc]
      rcases ih (k + 1) acc with ⟨heq, hall⟩ | ⟨i, hi, heq, hlt, hmin, hfirst⟩
      · left
        refine ⟨heq, ?_⟩
        intro j hj
        cases j with
        | zero => simpa using le_of_not_lt hc
        | succ j =>
          simp only [List.getD_cons_succ]
          exact hall j (by simpa using hj)
      · right
        refine ⟨i + 1, by simpa using hi, ?_, ?_, ?_, ?_⟩
        · rw [heq]
          simp only [List.getD_cons_succ, Prod.mk.injEq]
          exact ⟨by omega, trivial⟩
        · simp only [List.getD_cons_succ]
          exact hlt
        · intro j hj
          cases j with
          | zero =>
            simp only [List.getD_cons_succ, List.getD_cons_zero]
            exact le_trans (le_of_lt hlt) (le_of_not_lt hc)
          | succ j =>
            simp only [List.getD_cons_succ]
            exact hmin j (by simpa using hj)
        · intro j hj
          cases j with
          | zero =>
            simp only [List.getD_cons_succ, List.getD_cons_zero]
            exact lt_of_lt_of_le hlt (le_of_not_lt hc)
          | succ j =>
            simp only [List.getD_cons_succ]
            exact hfirst j (by omega)

/-- min_cost_index returns an in-range index of minimum cost, and on ties
the smallest such index: every strictly earlier index has strictly larger
cost. -/
theorem min_cost_index_spec (costs : List ℚ) (h : costs ≠ []) :
    min_cost_index costs < costs.length ∧
    (∀ k < costs.length,
      costs.getD (min_cost_index costs) 0 ≤ costs.getD k 0) ∧
    (∀ k < min_cost_index costs,
      costs.getD (min_cost_index costs) 0 < costs.getD k 0) := by
  unfold min_cost_index
  have he : costs.enum = costs.enumFrom 0 := rfl
  rw [he]
  rcases min_fold_from costs 0 (0, costs.getD 0 0) with
    ⟨heq, hall⟩ | ⟨i, hi, heq, hlt, hmin, hfirst⟩
  · rw [heq]
    refine ⟨List.length_pos.mpr h, ?_, ?_⟩
    · intro k hk
      exact hall k hk
    · intro k hk
      exact absurd hk (Nat.not_lt_zero k)
  · rw [heq]
    refine ⟨by simpa using hi, ?_, ?_⟩
    · intro k hk
      simpa using hmin k hk
    · intro k hk
      exact by simpa using hfirst k (by simpa using hk)

/-- Membership in an enumeration pins the index below the length and the
element to the list entry at that index. -/
theorem mem_enum_spec {α : Type _} (l : List α) (p : ℕ × α) (d : α)
    (hp : p ∈ l.enum) : p.1 < l.length ∧ l.getD p.1 d = p.2 := by
  rw [List.mem_enum_iff_getElem?] at hp
  have h1 : p.1 < l.length := by
    by_contra h
    rw [List.getElem?_eq_none (by omega)] at hp
    exact Option.noConfusion hp
  refine ⟨h1, ?_⟩
  rw [List.getD_eq_getElem l d h1]
  rw [List.getElem?_eq_getElem h1] at hp
  exact Option.some_injective _ hp

/-- Every in-range index appears in the enumeration, paired with the list
entry there. -/
theorem enum_mem_of_lt {α : Type _} (l : List α) (k : ℕ) (d : α)
    (hk : k < l.length) : (k, l.getD k d) ∈ l.enum := by
  rw [List.mem_enum_iff_getElem?]
  rw [List.getD_eq_getElem l d hk, List.getElem?_eq_getElem hk]

/-- Enumerating a range pairs every index with itself. -/
theorem enum_range (n : ℕ) :
    (List.range n).enum = (List.range n).map fun j => (j, j) := by
  refine List.ext_getElem (by simp [List.enum_length]) ?_
  intro k h1 h2
  simp [List.getElem_enum, List.getElem_map, List.getElem_range]

/-- The bucket-filling fold preserves the number of buckets. -/
theorem buckets_foldl_length (objects : List Object) (gbb : AABB)
    (dim : ℕ) :
    ∀ (l : List (ℕ × V3)) (B : List SplitBucket),
    (l.foldl (add_to_bucket objects gbb dim) B).length = B.length := by
  intro l
  induction l with
  | nil => intro B; rfl
  | cons ic l ih =>
    intro B
    rw [List.foldl_cons, ih]
    simp [add_to_bucket, length_update_nth]

/-- The bucket-filling fold, bucket by bucket: slot j accumulates exactly
the enumerated centroids whose bucket index is j, in order. -/
theorem buckets_foldl_getD (objects : List Object) (gbb : AABB) (dim : ℕ) :
    ∀ (l : List (ℕ × V3)) (B : List SplitBucket) (j : ℕ),
    (∀ ic ∈ l, sah_bucket gbb dim ic.2 < B.length) →
    (l.foldl (add_to_bucket objects gbb dim) B).getD j default_bucket =
      ⟨(B.getD j default_bucket).count +
          (l.filter fun ic => decide (sah_bucket gbb dim ic.2 = j)).length,
        (l.filter fun ic => decide (sah_bucket gbb dim ic.2 = j)).foldl
          (fun acc ic =>
            AABB.union [acc, (objects.getD ic.1 default_object).bounding_box])
          (B.getD j default_bucket).aabb,
        (B.getD j default_bucket).obj_indexes ++
          ((l.filter fun ic => decide (sah_bucket gbb dim ic.2 = j)).map
            Prod.fst)⟩ := by
  intro l
  induction l with
  | nil =>
    intro B j hb
    simp
  | cons ic l ih =>
    intro B j hb
    rw [List.foldl_cons]
    have hstep : add_to_bucket objects gbb dim B ic =
        update_nth B (sah_bucket gbb dim ic.2) (fun bucket =>
          ⟨bucket.count + 1,
            AABB.union [bucket.aabb,
              (objects.getD ic.1 default_object).bounding_box],
            bucket.obj_indexes ++ [ic.1]⟩) := rfl
    rw [hstep]
    have hb2 : ∀ p ∈ l, sah_bucket gbb dim p.2 <
        (update_nth B (sah_bucket gbb dim ic.2) (fun bucket =>
          (⟨bucket.count + 1,
            AABB.union [bucket.aabb,
              (objects.getD ic.1 default_object).bounding_box],
            bucket.obj_indexes ++ [ic.1]⟩ : SplitBucket))).length := by
      rw [length_update_nth]
      intro p hp
      exact hb p (List.mem_cons_of_mem ic hp)
    rw [ih _ j hb2]
    rw [getD_update_nth]
    rw [List.filter_cons]
    by_cases h : sah_bucket gbb dim ic.2 = j
    · rw [if_pos (show j = sah_bucket gbb dim ic.2 ∧
          sah_bucket gbb dim ic.2 < B.length from
          ⟨h.symm, hb ic (List.mem_cons_self ic l)⟩)]
      rw [if_pos (by simpa using h)]
      dsimp only
      simp only [SplitBucket.mk.injEq, List.length_cons, List.foldl_cons,
        List.map_cons, List.append_assoc, List.singleton_append,
        List.cons_append, List.nil_append]
      exact ⟨by omega, trivial, trivial⟩
    · rw [if_neg (show ¬(j = sah_bucket gbb dim ic.2 ∧
          sah_bucket gbb dim ic.2 < B.length) from fun hc =>
          h hc.1.symm)]
      rw [if_neg (by simpa using h)]

/-- The bucket-filling loop of bvh_split_by_sah produces, for each of the
12 slots, the spec-side bucket record: member count, member box union, and
member indexes. -/
theorem init_buckets_eq (objects : List Object) (centroids : List V3)
    (gbb : AABB) (dim : ℕ)
    (hb : ∀ c ∈ centroids, sah_bucket gbb dim c < 12) :
    init_buckets objects centroids gbb dim =
      (List.range 12).map (sah_bucket_data objects centroids gbb dim) := by
  have hb2 : ∀ ic ∈ centroids.enum, sah_bucket gbb dim ic.2 <
      (List.replicate 12 default_bucket).length := by
    intro ic hic
    rw [List.length_replicate]
    have h1 := mem_enum_spec centroids ic 0 hic
    rw [← h1.2]
    apply hb
    rw [List.getD_eq_getElem _ _ h1.1]
    exact List.getElem_mem h1.1
  have hdef : init_buckets objects centroids gbb dim =
      centroids.enum.foldl (add_to_bucket objects gbb dim)
        (List.replicate 12 default_bucket) := rfl
  refine List.ext_getElem ?_ ?_
  · rw [hdef, buckets_foldl_length]
    simp
  · intro k h1 h2
    have hk : k < 12 := by simpa using h2
    rw [List.getElem_map, List.getElem_range]
    rw [← List.getD_eq_getElem _ default_bucket h1]
    rw [hdef, buckets_foldl_getD objects gbb dim centroids.enum _ k hb2]
    have hrep : (List.replicate 12 default_bucket).getD k default_bucket =
        default_bucket := by
      rw [List.getD_eq_getElem _ _ (by simpa using hk),
        List.getElem_replicate]
    rw [hrep]
    show _ = sah_bucket_data objects centroids gbb dim k
    unfold sah_bucket_data sah_box sah_members
    simp [default_bucket]

/-- Summing an indicator over a duplicate-free list counts membership. -/
theorem sum_ite_mem (S : List ℕ) (hS : S.Nodup) (a : ℕ) :
    (S.map fun j => if a = j then 1 else 0).sum =
      if a ∈ S then 1 else 0 := by
  induction S with
  | nil => simp
  | cons s S ih =>
    rw [List.nodup_cons] at hS
    rw [List.map_cons, List.sum_cons, ih hS.2]
    by_cases h : a = s
    · subst h
      rw [if_pos rfl, if_neg hS.1, if_pos (List.mem_cons_self a S)]
    · rw [if_neg h]
      by_cases h2 : a ∈ S
      · rw [if_pos h2, if_pos (List.mem_cons_of_mem s h2)]
      · rw [if_neg h2, if_neg (by simp [List.mem_cons, h, h2])]

/-- Per-bucket counts, summed over any selection of the 12 bucket indexes,
equal the direct count of elements whose bucket is selected. -/
theorem countP_bucket_sum {α : Type _} (L : List α) (P : α → ℕ)
    (hb : ∀ x ∈ L, P x < 12) (Q : ℕ → Bool) :
    (((List.range 12).filter Q).map fun j =>
        (L.filter fun x => decide (P x = j)).length).sum =
      L.countP fun x => Q (P x) := by
  induction L with
  | nil => simp
  | cons x L ih =>
    have hb2 : ∀ y ∈ L, P y < 12 := fun y hy =>
      hb y (List.mem_cons_of_mem x hy)
    rw [List.countP_cons, ← ih hb2]
    have hmap : ∀ j ∈ (List.range 12).filter Q,
        (List.filter (fun y => decide (P y = j)) (x :: L)).length =
          (List.filter (fun y => decide (P y = j)) L).length +
            (if P x = j then 1 else 0) := by
      intro j hj
      rw [List.filter_cons]
      by_cases h : P x = j
      · rw [if_pos (by simpa using h), if_pos h, List.length_cons]
      · rw [if_neg (by simpa using h), if_neg h]
        omega
    rw [List.map_congr_left hmap, List.sum_map_add]
    congr 1
    rw [sum_ite_mem _ ((List.nodup_range 12).filter Q) (P x)]
    by_cases hq : Q (P x) = true
    · rw [if_pos (List.mem_filter.mpr
        ⟨List.mem_range.mpr (hb x (List.mem_cons_self x L)), hq⟩),
        if_pos hq]
    · rw [if_neg (fun hc => hq (List.mem_filter.mp hc).2), if_neg hq]

/-- Enumerated centroids all have bucket index below 12 when the raw
centroids do. -/
theorem sah_bucket_enum_lt (centroids : List V3) (gbb : AABB) (dim : ℕ)
    (hb : ∀ c ∈ centroids, sah_bucket gbb dim c < 12) :
    ∀ ic ∈ centroids.enum, sah_bucket gbb dim ic.2 < 12 := by
  intro ic hic
  have h1 := mem_enum_spec centroids ic 0 hic
  rw [← h1.2]
  apply hb
  rw [List.getD_eq_getElem _ _ h1.1]
  exact List.getElem_mem h1.1

/-- Bucket member counts summed over selected buckets, as a count over the
enumerated centroids. -/
theorem sah_members_sum (centroids : List V3) (gbb : AABB) (dim : ℕ)
    (hb : ∀ c ∈ centroids, sah_bucket gbb dim c < 12) (Q : ℕ → Bool) :
    (((List.range 12).filter Q).map fun j =>
        (sah_members centroids gbb dim j).length).sum =
      centroids.enum.countP fun ic => Q (sah_bucket gbb dim ic.2) :=
  countP_bucket_sum centroids.enum (fun ic => sah_bucket gbb dim ic.2)
    (sah_bucket_enum_lt centroids gbb dim hb) Q

/-- Rational-cast form of the previous lemma, matching the cost
summation. -/
theorem sah_members_cast_sum (centroids : List V3) (gbb : AABB) (dim : ℕ)
    (hb : ∀ c ∈ centroids, sah_bucket gbb dim c < 12) (Q : ℕ → Bool) :
    ((((List.range 12).filter Q).map fun j =>
        (((sah_members centroids gbb dim j).length : ℕ) : ℚ))).sum =
      ((centroids.enum.countP fun ic =>
        Q (sah_bucket gbb dim ic.2) : ℕ) : ℚ) := by
  rw [← sah_members_sum centroids gbb dim hb Q]
  rw [Nat.cast_list_sum, List.map_map]
  rfl

/-- The cost the source computes from its bucket records equals the
spec-side cost formula, for every plane index. -/
theorem bucket_cost_eq (objects : List Object) (centroids : List V3)
    (gbb : AABB) (dim : ℕ)
    (hb : ∀ c ∈ centroids, sah_bucket gbb dim c < 12) (i : ℕ) :
    bucket_cost ((List.range 12).map
        (sah_bucket_data objects centroids gbb dim)) gbb i =
      sah_cost objects centroids gbb dim i := by
  have henum : (((List.range 12).map
      (sah_bucket_data objects centroids gbb dim)).enum) =
      (List.range 12).map fun j =>
        (j, sah_bucket_data objects centroids gbb dim j) := by
    rw [List.enum_map, enum_range, List.map_map]
    rfl
  unfold bucket_cost sah_cost
  dsimp only
  rw [henum]
  rw [List.filter_map, List.filter_map]
  rw [List.map_map, List.map_map, List.map_map, List.map_map]
  have hfl : List.filter ((fun jb : ℕ × SplitBucket => decide (jb.1 ≤ i)) ∘
      fun j => (j, sah_bucket_data objects centroids gbb dim j))
      (List.range 12) =
      (List.range 12).filter fun j => decide (j ≤ i) :=
    List.filter_congr fun a _ => rfl
  have hfr : List.filter ((fun jb : ℕ × SplitBucket => decide (i < jb.1)) ∘
      fun j => (j, sah_bucket_data objects centroids gbb dim j))
      (List.range 12) =
      (List.range 12).filter fun j => decide (i < j) :=
    List.filter_congr fun a _ => rfl
  rw [hfl, hfr]
  simp only [Function.comp_def, sah_bucket_data]
  rw [sah_members_cast_sum centroids gbb dim hb fun j => decide (j ≤ i),
    sah_members_cast_sum centroids gbb dim hb fun j => decide (i < j)]

/-- Setting a batch of indexes to a value preserves the flag-vector
length. -/
theorem set_foldl_length (idxs : List ℕ) (v : Bool) :
    ∀ (fl : List Bool),
    (idxs.foldl (fun f i => f.set i v) fl).length = fl.length := by
  induction idxs with
  | nil => intro fl; rfl
  | cons i idxs ih =>
    intro fl
    rw [List.foldl_cons, ih, List.length_set]

/-- Setting a batch of indexes to a value, read back entrywise. -/
theorem set_foldl_getD (idxs : List ℕ) (v : Bool) :
    ∀ (fl : List Bool) (k : ℕ),
    (idxs.foldl (fun f i => f.set i v) fl).getD k false =
      if k ∈ idxs ∧ k < fl.length then v else fl.getD k false := by
  induction idxs with
  | nil =>
    intro fl k
    simp
  | cons i idxs ih =>
    intro fl k
    rw [List.foldl_cons, ih (fl.set i v) k, List.length_set]
    by_cases h1 : k ∈ idxs ∧ k < fl.length
    · rw [if_pos h1, if_pos ⟨List.mem_cons_of_mem i h1.1, h1.2⟩]
    · rw [if_neg h1]
      rw [List.getD_eq_getElem?_getD, List.getElem?_set,
        List.getD_eq_getElem?_getD fl k]
      by_cases h2 : i = k
      · obtain rfl := h2
        by_cases h3 : i < fl.length
        · rw [if_pos rfl, if_pos h3,
            if_pos ⟨List.mem_cons_self i idxs, h3⟩]
          rfl
        · rw [if_pos rfl, if_neg h3, if_neg (fun hc => h3 hc.2)]
          rw [List.getElem?_eq_none (by omega)]
      · rw [if_neg h2]
        by_cases h4 : k ∈ i :: idxs ∧ k < fl.length
        · exfalso
          rcases List.mem_cons.mp h4.1 with he | hm
          · exact h2 he.symm
          · exact h1 ⟨hm, h4.2⟩
        · rw [if_neg h4]

/-- An index appearing in bucket j's member list points below the centroid
count, at a centroid whose bucket is j. -/
theorem mem_sah_members_fst (centroids : List V3) (gbb : AABB)
    (dim j k : ℕ)
    (hk : k ∈ (sah_members centroids gbb dim j).map Prod.fst) :
    k < centroids.length ∧
      sah_bucket gbb dim (centroids.getD k 0) = j := by
  rcases List.mem_map.mp hk with ⟨ic, hic, hfst⟩
  unfold sah_members at hic
  rcases List.mem_filter.mp hic with ⟨henum2, hdec⟩
  have h1 := mem_enum_spec centroids ic 0 henum2
  subst hfst
  refine ⟨h1.1, ?_⟩
  rw [h1.2]
  exact of_decide_eq_true hdec

/-- Every in-range index appears in the member list of its own bucket. -/
theorem mem_sah_members_fst_of_lt (centroids : List V3) (gbb : AABB)
    (dim k : ℕ) (hk : k < centroids.length) :
    k ∈ (sah_members centroids gbb dim
        (sah_bucket gbb dim (centroids.getD k 0))).map Prod.fst := by
  unfold sah_members
  refine List.mem_map.mpr ⟨(k, centroids.getD k 0), ?_, rfl⟩
  refine List.mem_filter.mpr ⟨enum_mem_of_lt centroids k 0 hk, ?_⟩
  exact decide_eq_true rfl

/-- The bucket-by-bucket flag fold preserves the flag-vector length. -/
theorem flags_foldl_length (centroids : List V3) (gbb : AABB)
    (dim chosen : ℕ) :
    ∀ (S : List ℕ) (fl : List Bool),
    (S.foldl (fun flags j =>
        ((sah_members centroids gbb dim j).map Prod.fst).foldl
          (fun f ind => f.set ind (decide (j ≤ chosen))) flags) fl).length =
      fl.length := by
  intro S
  induction S with
  | nil => intro fl; rfl
  | cons s S ih =>
    intro fl
    rw [List.foldl_cons, ih, set_foldl_length]

/-- The bucket-by-bucket flag fold, read back entrywise: an index touched
by some processed bucket carries the left/right verdict of its own bucket,
every other entry keeps its initial flag. -/
theorem flags_foldl_getD (centroids : List V3) (gbb : AABB)
    (dim chosen : ℕ) :
    ∀ (S : List ℕ) (fl : List Bool) (k : ℕ),
    (S.foldl (fun flags j =>
        ((sah_members centroids gbb dim j).map Prod.fst).foldl
          (fun f ind => f.set ind (decide (j ≤ chosen))) flags) fl).getD k
        false =
      if ∃ j ∈ S, k ∈ (sah_members centroids gbb dim j).map Prod.fst ∧
          k < fl.length then
        decide (sah_bucket gbb dim (centroids.getD k 0) ≤ chosen)
      else fl.getD k false := by
  intro S
  induction S with
  | nil =>
    intro fl k
    rw [List.foldl_nil, if_neg (by simp)]
  | cons s S ih =>
    intro fl k
    rw [List.foldl_cons, ih, set_foldl_length]
    by_cases h1 : ∃ j ∈ S,
        k ∈ (sah_members centroids gbb dim j).map Prod.fst ∧ k < fl.length
    · obtain ⟨j, hj, hm⟩ := h1
      rw [if_pos ⟨j, hj, hm⟩, if_pos ⟨j, List.mem_cons_of_mem s hj, hm⟩]
    · rw [if_neg h1, set_foldl_getD]
      by_cases h2 : k ∈ (sah_members centroids gbb dim s).map Prod.fst ∧
          k < fl.length
      · rw [if_pos h2]
        have hs := mem_sah_members_fst centroids gbb dim s k h2.1
        rw [if_pos ⟨s, List.mem_cons_self s S, h2⟩, hs.2]
      · rw [if_neg h2]
        by_cases h3 : ∃ j ∈ s :: S,
            k ∈ (sah_members centroids gbb dim j).map Prod.fst ∧
              k < fl.length
        · exfalso
          obtain ⟨j, hj, hm⟩ := h3
          rcases List.mem_cons.mp hj with rfl | hj2
          · exact h2 hm
          · exact h1 ⟨j, hj2, hm⟩
        · rw [if_neg h3]

/-- The left_inds vector of bvh_split_by_sah equals, entry by entry, the
direct verdict: is the object's bucket at most the chosen plane index. -/
theorem left_flags_eq (objects : List Object) (centroids : List V3)
    (gbb : AABB) (dim chosen : ℕ)
    (hb : ∀ c ∈ centroids, sah_bucket gbb dim c < 12)
    (hn : centroids.length = objects.length) :
    left_flags objects.length ((List.range 12).map
        (sah_bucket_data objects centroids gbb dim)) chosen =
      (List.range objects.length).map fun k =>
        decide (sah_bucket gbb dim (centroids.getD k 0) ≤ chosen) := by
  have henum : (((List.range 12).map
      (sah_bucket_data objects centroids gbb dim)).enum) =
      (List.range 12).map fun j =>
        (j, sah_bucket_data objects centroids gbb dim j) := by
    rw [List.enum_map, enum_range, List.map_map]
    rfl
  unfold left_flags
  rw [henum, List.foldl_map]
  show (List.range 12).foldl (fun flags j =>
      ((sah_members centroids gbb dim j).map Prod.fst).foldl
        (fun f ind => f.set ind (decide (j ≤ chosen))) flags)
      (List.replicate objects.length false) =
    (List.range objects.length).map fun k =>
      decide (sah_bucket gbb dim (centroids.getD k 0) ≤ chosen)
  refine List.ext_getElem ?_ ?_
  · rw [flags_foldl_length]
    simp
  · intro k h1 h2
    have hk : k < objects.length := by simpa using h2
    rw [List.getElem_map, List.getElem_range]
    rw [← List.getD_eq_getElem _ false h1]
    rw [flags_foldl_getD]
    have hcond : ∃ j ∈ List.range 12,
        k ∈ (sah_members centroids gbb dim j).map Prod.fst ∧
          k < (List.replicate objects.length false).length := by
      refine ⟨sah_bucket gbb dim (centroids.getD k 0), ?_, ?_, ?_⟩
      · apply List.mem_range.mpr
        apply hb
        rw [List.getD_eq_getElem _ _ (show k < centroids.length by omega)]
        exact List.getElem_mem _
      · exact mem_sah_members_fst_of_lt centroids gbb dim k (by omega)
      · rw [List.length_replicate]
        exact hk
    rw [if_pos hcond]

/-- Componentwise order projects through axis indexing. -/
theorem V3.le_nth {a b : V3} (h : V3.le a b) (dim : ℕ) :
    a.nth dim ≤ b.nth dim := by
  match dim with
  | 0 => exact h.1
  | 1 => exact h.2.1
  | n + 2 => exact h.2.2

/-- A centroid coordinate inside the global range always lands in one of
the 12 buckets, including over a degenerate (zero-width) range. -/
theorem bucket_index_lt_12 (c m M : ℚ) (h1 : m ≤ c) (h2 : c ≤ M) :
    bucket_index c m (M - m) < 12 := by
  unfold bucket_index
  dsimp only
  by_cases hz : M - m = 0
  · rw [hz, div_zero]
    norm_num
  · have hpos : 0 < M - m := by
      rcases lt_or_eq_of_le (sub_nonneg.mpr (h1.trans h2)) with h | h
      · exact h
      · exact absurd h.symm hz
    have hble : 12 * (c - m) / (M - m) ≤ 12 := by
      rw [div_le_iff₀ hpos]
      linarith
    have hfl : ⌊12 * (c - m) / (M - m)⌋ ≤ 12 := by
      have h12 : ⌊(12 : ℚ)⌋ = 12 := by norm_num
      calc ⌊12 * (c - m) / (M - m)⌋ ≤ ⌊(12 : ℚ)⌋ := Int.floor_le_floor hble
        _ = 12 := h12
    by_cases he : (⌊12 * (c - m) / (M - m)⌋).toNat = 12
    · rw [if_pos he]
      norm_num
    · rw [if_neg he]
      omega

/-- Partitioning the enumerated objects by the flag vector is the same as
filtering by the bucket verdict directly. -/
theorem partition_flags_eq (objects : List Object) (centroids : List V3)
    (gbb : AABB) (dim ch : ℕ) :
    (objects.enum.partition fun io =>
        ((List.range objects.length).map fun k =>
          decide (sah_bucket gbb dim (centroids.getD k 0) ≤ ch)).getD io.1
          false) =
      (objects.enum.filter fun io =>
          decide (sah_bucket gbb dim (centroids.getD io.1 0) ≤ ch),
        objects.enum.filter fun io =>
          !decide (sah_bucket gbb dim (centroids.getD io.1 0) ≤ ch)) := by
  rw [List.partition_eq_filter_filter]
  have hpt : ∀ io ∈ objects.enum,
      (((List.range objects.length).map fun k =>
        decide (sah_bucket gbb dim (centroids.getD k 0) ≤ ch)).getD io.1
        false) =
      decide (sah_bucket gbb dim (centroids.getD io.1 0) ≤ ch) := by
    intro io hio
    have h1 := (mem_enum_spec objects io default_object hio).1
    rw [List.getD_eq_getElem _ false (by simpa using h1)]
    rw [List.getElem_map, List.getElem_range]
  simp only [Prod.mk.injEq]
  refine ⟨List.filter_congr hpt, List.filter_congr ?_⟩
  intro io hio
  simp only [Function.comp_apply]
  rw [hpt io hio]

/-- bvh_split_by_sah refines the spec-side SAH split, and computes exactly
the spec-side cost for each of the 11 planes, whenever every centroid's
bucket is in range and the centroid list enumerates the objects. -/
theorem bvh_split_by_sah_eq (objects : List Object) (centroids : List V3)
    (gbb : AABB) (dim : ℕ)
    (hb : ∀ c ∈ centroids, sah_bucket gbb dim c < 12)
    (hn : centroids.length = objects.length) :
    bvh_split_by_sah objects centroids gbb dim =
      sah_spec_split objects centroids gbb dim ∧
    (List.range 11).map
        (bucket_cost (init_buckets objects centroids gbb dim) gbb) =
      (List.range 11).map (sah_cost objects centroids gbb dim) := by
  have hcosts : (List.range 11).map
      (bucket_cost (init_buckets objects centroids gbb dim) gbb) =
      (List.range 11).map (sah_cost objects centroids gbb dim) := by
    rw [init_buckets_eq objects centroids gbb dim hb]
    exact List.map_congr_left fun i _ =>
      bucket_cost_eq objects centroids gbb dim hb i
  refine ⟨?_, hcosts⟩
  unfold bvh_split_by_sah sah_spec_split
  dsimp only
  rw [hcosts]
  rw [init_buckets_eq objects centroids gbb dim hb]
  rw [left_flags_eq objects centroids gbb dim _ hb hn]
  rw [partition_flags_eq objects centroids gbb dim _]

/-- The global centroid bounding box bvh_split computes. -/
def centroid_box (objects : List Object) : AABB :=
  ⟨(component_wise_range (objects.map Object.centroid)).1,
   (component_wise_range (objects.map Object.centroid)).2⟩

/-- The largest-centroid-range axis bvh_split splits along. -/
def centroid_axis (objects : List Object) : ℕ :=
  max_dim ((component_wise_range (objects.map Object.centroid)).2 -
    (component_wise_range (objects.map Object.centroid)).1)

/-- Every centroid of the list lands in one of the 12 buckets of its own
global box. -/
theorem centroid_bucket_lt_12 (objects : List Object)
    (c : V3) (hc : c ∈ objects.map Object.centroid) :
    sah_bucket (centroid_box objects) (centroid_axis objects) c < 12 := by
  have hbd := component_wise_range_bounds (objects.map Object.centroid) c hc
  unfold sah_bucket
  exact bucket_index_lt_12 _ _ _
    (V3.le_nth hbd.1 (centroid_axis objects))
    (V3.le_nth hbd.2 (centroid_axis objects))

/-- C8: bvh_split splits along the axis of largest centroid range, whose
selector max_dim indeed returns the arg-max axis; for at most 4 members or
the Basic policy it partitions by centroid against the axis midpoint;
otherwise it assigns every member to one of the 12 buckets of the centroid
range, computes for each of the 11 planes the cost
0.125 + (countLeft·areaLeft + countRight·areaRight) / areaParent over the
unions of the left/right bucket boxes, picks the minimum-cost plane
(smallest index on ties, as the argmin characterization states), and sends
members in buckets ≤ the chosen index left and the rest right. -/
theorem c8_split_policy :
    (∀ diff : V3,
      max_dim diff < 3 ∧
        diff.nth (max_dim diff) = max diff.x (max diff.y diff.z)) ∧
    (∀ (objects : List Object) (st : SplitType),
      objects.length ≤ 4 ∨ st = SplitType.basic →
      bvh_split objects st = midpoint_split objects) ∧
    (∀ costs : List ℚ, costs ≠ [] →
      min_cost_index costs < costs.length ∧
      (∀ k < costs.length,
        costs.getD (min_cost_index costs) 0 ≤ costs.getD k 0) ∧
      (∀ k < min_cost_index costs,
        costs.getD (min_cost_index costs) 0 < costs.getD k 0)) ∧
    (∀ objects : List Object, 4 < objects.length →
      bvh_split objects SplitType.sah =
        sah_spec_split objects (objects.map Object.centroid)
          (centroid_box objects) (centroid_axis objects) ∧
      (List.range 11).map (bucket_cost
          (init_buckets objects (objects.map Object.centroid)
            (centroid_box objects) (centroid_axis objects))
          (centroid_box objects)) =
        (List.range 11).map (sah_cost objects (objects.map Object.centroid)
          (centroid_box objects) (centroid_axis objects))) := by
  refine ⟨?_, ?_, ?_, ?_⟩
  · intro diff
    constructor
    · unfold max_dim
      split_ifs <;> norm_num
    · unfold max_dim
      split_ifs with h1 h2 h3
      · show diff.z = _
        rw [max_eq_right (le_of_lt h2), max_eq_right (le_of_lt (h1.trans h2))]
      · show diff.y = _
        rw [max_eq_left (le_of_not_lt h2), max_eq_right (le_of_lt h1)]
      · show diff.z = _
        rw [max_eq_right (le_of_lt (lt_of_le_of_lt (le_of_not_lt h1) h3)),
          max_eq_right (le_of_lt h3)]
      · show diff.x = _
        rw [max_eq_left (max_le (le_of_not_lt h1) (le_of_not_lt h3))]
  · intro objects st hst
    unfold bvh_split midpoint_split
    dsimp only
    rw [if_pos hst]
    rw [List.partition_eq_filter_filter]
    simp only [Prod.mk.injEq]
    refine ⟨trivial, List.filter_congr fun o _ => rfl⟩
  · exact min_cost_index_spec
  · intro objects h5
    have hn : (objects.map Object.centroid).length = objects.length :=
      List.length_map _ _
    have hmain := bvh_split_by_sah_eq objects (objects.map Object.centroid)
      (centroid_box objects) (centroid_axis objects)
      (centroid_bucket_lt_12 objects) hn
    have hsplit : bvh_split objects SplitType.sah =
        bvh_split_by_sah objects (objects.map Object.centroid)
          (centroid_box objects) (centroid_axis objects) := by
      unfold bvh_split
      dsimp only
      rw [if_neg ?_]
      · rfl
      · rintro (h | h)
        · omega
        · exact SplitType.noConfusion h
    exact ⟨hsplit.trans hmain.1, hmain.2⟩

/-- Concrete C8 checks: the basic policy on the three disjoint demo boxes
takes the midpoint partition; the running-minimum scan breaks the tie in
[5, 3, 3] to the smaller index 1; and the SAH policy on five objects
agrees with the spec-side split. -/
theorem c8_witness :
    bvh_split demo_objs SplitType.basic = midpoint_split demo_objs ∧
    min_cost_index [5, 3, 3] = 1 ∧
    4 < five_dup.length ∧
    bvh_split five_dup SplitType.sah =
      sah_spec_split five_dup (five_dup.map Object.centroid)
        (centroid_box five_dup) (centroid_axis five_dup) := by
  refine ⟨c8_split_policy.2.1 demo_objs SplitType.basic (Or.inr rfl),
    by with_unfolding_all rfl,
    by with_unfolding_all decide,
    (c8_split_policy.2.2.2 five_dup (by with_unfolding_all decide)).1⟩

end Raytracer
